import Mathlib

/-!
Shallow embedding of `src/sage/schemes/curves/zariski_vankampen.py`
(Zariski–Van Kampen braid monodromy pipeline) and proofs about it.

Conventions:
* Exact scalars (Sage's `QQbar` elements restricted to the Gaussian
  rationals, which cover every concrete case treated here) are modelled by
  the structure `QC` (pairs of rationals under complex arithmetic).
* Sage's `ComplexIntervalField` elements are modelled by rational boxes
  (`QI` for a real interval, `CBox` for a complex one), with outward
  rounding idealised away: interval operations are exact rational interval
  arithmetic.  This matches the role the intervals play in the source: the
  code only relies on containment and overlap tests.
* Sage's floating `ComplexField`/`RealField` values are modelled exactly,
  except where a claim depends on the approximation itself; there the
  approximating function is an explicit parameter constrained to be
  accurate (see `roots_interval`).
* Unbounded `while` loops of the source become fuel-indexed recursions
  returning `Option`/`Except`; `none`/`error` covers both genuine
  exceptions of the source and non-termination within the given fuel.
-/

namespace ZVK

/-! ## Gaussian rational scalars (exact complex values) -/

/-- An exact complex value with rational real and imaginary parts,
modelling the `QQbar` elements appearing in the fragments under study. -/
structure QC where
  re : ℚ
  im : ℚ
  deriving DecidableEq, Repr

namespace QC

def add (a b : QC) : QC := ⟨a.re + b.re, a.im + b.im⟩

def mul (a b : QC) : QC := ⟨a.re * b.re - a.im * b.im, a.re * b.im + a.im * b.re⟩

def neg (a : QC) : QC := ⟨-a.re, -a.im⟩

instance : Add QC := ⟨add⟩
instance : Mul QC := ⟨mul⟩
instance : Neg QC := ⟨neg⟩
instance : Zero QC := ⟨⟨0, 0⟩⟩
instance : One QC := ⟨⟨1, 0⟩⟩

theorem add_re (a b : QC) : (a + b).re = a.re + b.re := rfl
theorem add_im (a b : QC) : (a + b).im = a.im + b.im := rfl
theorem mul_re (a b : QC) : (a * b).re = a.re * b.re - a.im * b.im := rfl
theorem mul_im (a b : QC) : (a * b).im = a.re * b.im + a.im * b.re := rfl
theorem neg_re (a : QC) : (-a).re = -a.re := rfl
theorem neg_im (a : QC) : (-a).im = -a.im := rfl
theorem zero_re : (0 : QC).re = 0 := rfl
theorem zero_im : (0 : QC).im = 0 := rfl
theorem one_re : (1 : QC).re = 1 := rfl
theorem one_im : (1 : QC).im = 0 := rfl

attribute [simp] add_re add_im mul_re mul_im neg_re neg_im zero_re zero_im one_re one_im

theorem ext' {a b : QC} (h1 : a.re = b.re) (h2 : a.im = b.im) : a = b := by
  cases a; cases b; simp_all

instance : CommRing QC where
  add := add
  add_assoc a b c := ext' (by simp [add]; ring) (by simp [add]; ring)
  zero := ⟨0, 0⟩
  zero_add a := ext' (by simp [add]) (by simp [add])
  add_zero a := ext' (by simp [add]) (by simp [add])
  add_comm a b := ext' (by simp [add]; ring) (by simp [add]; ring)
  mul := mul
  left_distrib a b c := ext' (by simp [mul, add]; ring) (by simp [mul, add]; ring)
  right_distrib a b c := ext' (by simp [mul, add]; ring) (by simp [mul, add]; ring)
  zero_mul a := ext' (by simp [mul]) (by simp [mul])
  mul_zero a := ext' (by simp [mul]) (by simp [mul])
  mul_assoc a b c := ext' (by simp [mul]; ring) (by simp [mul]; ring)
  one := ⟨1, 0⟩
  one_mul a := ext' (by simp [mul]) (by simp [mul])
  mul_one a := ext' (by simp [mul]) (by simp [mul])
  neg := neg
  neg_add_cancel a := ext' (by simp [add, neg]) (by simp [add, neg])
  mul_comm a b := ext' (by simp [mul]; ring) (by simp [mul]; ring)
  nsmul := nsmulRec
  zsmul := zsmulRec

/-- Multiplicative inverse `conj z / |z|²` (junk value `0` at `0`). -/
def inv (a : QC) : QC :=
  ⟨a.re / (a.re ^ 2 + a.im ^ 2), -a.im / (a.re ^ 2 + a.im ^ 2)⟩

end QC

/-! ## Rational interval arithmetic

Model for Sage's `RealIntervalField` / `ComplexIntervalField` elements as
used in the source file: closed intervals with exact rational endpoints
(outward rounding idealised away). -/

/-- A closed real interval with rational endpoints. -/
structure QI where
  lo : ℚ
  hi : ℚ
  deriving DecidableEq, Repr

namespace QI

def add (a b : QI) : QI := ⟨a.lo + b.lo, a.hi + b.hi⟩

def neg (a : QI) : QI := ⟨-a.hi, -a.lo⟩

def sub (a b : QI) : QI := a.add b.neg

/-- Interval product: hull of the four endpoint products. -/
def mul (a b : QI) : QI :=
  ⟨min (min (a.lo * b.lo) (a.lo * b.hi)) (min (a.hi * b.lo) (a.hi * b.hi)),
   max (max (a.lo * b.lo) (a.lo * b.hi)) (max (a.hi * b.lo) (a.hi * b.hi))⟩

/-- Interval inverse, defined only when the interval excludes `0`. -/
def inv (a : QI) : Option QI :=
  if 0 < a.lo ∨ a.hi < 0 then some ⟨1 / a.hi, 1 / a.lo⟩ else none

/-- `a ⊆ b` (the containment test behind Sage's `x in I`). -/
def subset (a b : QI) : Bool := decide (b.lo ≤ a.lo ∧ a.hi ≤ b.hi)

/-- Closed intervals share at least one point (Sage's `overlaps`). -/
def overlaps (a b : QI) : Bool := decide (a.lo ≤ b.hi ∧ b.lo ≤ a.hi)

def point (q : ℚ) : QI := ⟨q, q⟩

end QI

/-- A complex interval: a rectangular box, one `QI` per component. -/
structure CBox where
  re : QI
  im : QI
  deriving DecidableEq, Repr

namespace CBox

def add (a b : CBox) : CBox := ⟨a.re.add b.re, a.im.add b.im⟩

def sub (a b : CBox) : CBox := ⟨a.re.sub b.re, a.im.sub b.im⟩

def mul (a b : CBox) : CBox :=
  ⟨(a.re.mul b.re).sub (a.im.mul b.im), (a.re.mul b.im).add (a.im.mul b.re)⟩

def conj (a : CBox) : CBox := ⟨a.re, a.im.neg⟩

/-- Interval enclosure of `|a|²`. -/
def normI (a : CBox) : QI := (a.re.mul a.re).add (a.im.mul a.im)

/-- Scale both components by a real interval. -/
def scale (s : QI) (a : CBox) : CBox := ⟨s.mul a.re, s.mul a.im⟩

/-- Complex interval division via `a · conj b / |b|²`; undefined (like the
unusable `[-∞,∞]` result of MPFI) when `|b|²` may contain zero. -/
def div (a b : CBox) : Option CBox :=
  match (normI b).inv with
  | none => none
  | some n => some (scale n (a.mul b.conj))

def subset (a b : CBox) : Bool := a.re.subset b.re && a.im.subset b.im

/-- Sage's `overlaps`: the two boxes share at least one point. -/
def overlaps (a b : CBox) : Bool := a.re.overlaps b.re && a.im.overlaps b.im

/-- The degenerate box `{z}` of an exact value. -/
def point (z : QC) : CBox := ⟨QI.point z.re, QI.point z.im⟩

/-- Membership of an exact value. -/
def containsPt (b : CBox) (z : QC) : Bool :=
  decide (b.re.lo ≤ z.re ∧ z.re ≤ b.re.hi ∧ b.im.lo ≤ z.im ∧ z.im ≤ b.im.hi)

end CBox

/-! ## Univariate polynomials (the fiber polynomial `f(x0, y)`)

Coefficient lists in ascending order of degree, with exact `QC`
coefficients. -/

/-- A univariate polynomial over the exact scalars, ascending coefficients. -/
abbrev Poly := List QC

namespace Poly

/-- Exact (Horner) evaluation. -/
def evalE (f : Poly) (z : QC) : QC := f.foldr (fun c acc => c + acc * z) 0

/-- Interval (Horner) evaluation, coefficients injected as point boxes. -/
def evalI (f : Poly) (z : CBox) : CBox :=
  f.foldr (fun c acc => (CBox.point c).add (acc.mul z)) (CBox.point 0)

private def derivAux : List QC → ℕ → List QC
  | [], _ => []
  | c :: t, n => (⟨(n : ℚ), 0⟩ : QC) * c :: derivAux t (n + 1)

/-- Formal derivative. -/
def deriv (f : Poly) : Poly := derivAux (f.drop 1) 1

end Poly

/-! ## `newton` (source lines 396–427)

`newton(f, x0, i0) = x0 - f(x0)/f.derivative()(i0)`.  The division is
interval division; when the derivative enclosure contains zero the MPFI
quotient is the unusable whole line, modelled as `none` (any containment
test on it fails, which is all the callers use). -/

/-- The interval Newton operator of the source. -/
def newton (f : Poly) (x0 : QC) (i0 : CBox) : Option CBox :=
  match CBox.div (CBox.point (f.evalE x0)) (f.deriv.evalI i0) with
  | none => none
  | some q => some ((CBox.point x0).sub q)

/-! ## `roots_interval` (source lines 430–496)

The per-root certification loop.  External collaborators modelled:

* the exact roots of `f(x0, y)` in `QQbar` are taken as an input list
  (root finding in the algebraic closure is the exact-root library);
* `(CF(r) - CF(r0)).abs()`, the 53-bit floating approximation of the
  modulus, is a parameter `absF`; theorems assume only that it is
  nonnegative and accurate up to the generous factor `3/2` in square
  (`(absF z)² ≤ 3/2·|z|²`), which any faithful floating approximation
  satisfies;
* the rational key `QQ(CF(r).real()) + I·QQ(CF(r).imag())` is modelled as
  the exact root itself (its value is only used through membership tests
  with ample slack).
-/

/-- Precision escalation of `roots_interval` (source line 486: `prec += 53`). -/
def rootsIntervalPrecStep (prec : ℕ) : ℕ := prec + 53

/-- Shrink-factor escalation of `roots_interval` (source line 489: `divisor *= 2`). -/
def rootsIntervalDivisorStep (d : ℚ) : ℚ := d * 2

/-- `IF(diam)*IF((-1,1),(-1,1))`: the square envelope box (source lines 484, 491). -/
def envelop (diam : ℚ) : CBox :=
  (CBox.point ⟨diam, 0⟩).mul ⟨⟨-1, 1⟩, ⟨-1, 1⟩⟩

/-- `min((CF(r)-CF(r0)).abs() for r0 in others)`: `none` on an empty
collection (Python's `min` raises `ValueError` there). -/
def minDist (absF : QC → ℚ) (r : QC) (others : List QC) : Option ℚ :=
  match others with
  | [] => none
  | o :: rest => some ((rest.map (fun r0 => absF (r + -r0))).foldl min (absF (r + -o)))

/-- The `while not newton(...) in r+envelop` loop of `roots_interval`
(source lines 485–491), returning the precision and divisor on exit. -/
def isolateLoop (fx : Poly) (r : QC) (dmin : ℚ) : ℕ → ℕ → ℚ → Option (ℕ × ℚ)
  | 0, _, _ => none
  | fuel + 1, prec, divisor =>
    let diam := dmin / divisor
    let box := (CBox.point r).add (envelop diam)
    let ok := match newton fx r box with
              | some img => img.subset box
              | none => false
    if ok then some (prec, divisor)
    else isolateLoop fx r dmin fuel (rootsIntervalPrecStep prec) (rootsIntervalDivisorStep divisor)

/-- The `for i in range(len(roots))` body of `roots_interval` (source lines
477–495): `prev` holds the already-processed roots (so that
`prev.reverse ++ rest` is `roots[:i] + roots[i:]`). -/
def rootsIntervalGo (absF : QC → ℚ) (fx : Poly) (fuel : ℕ) :
    List QC → List QC → Except String (List (QC × CBox))
  | _, [] => .ok []
  | prev, r :: rest =>
    match minDist absF r (prev.reverse ++ rest) with
    | none => .error "min() arg is an empty sequence"
    | some dmin =>
      match isolateLoop fx r dmin fuel 53 4 with
      | none => .error "precision escalation did not terminate"
      | some (_, divisor) =>
        let diam := dmin / divisor
        let box := (CBox.point r).add (envelop diam)
        let qapr := r
        if box.containsPt qapr then
          match rootsIntervalGo absF fx fuel (r :: prev) rest with
          | .ok res => .ok ((qapr, box) :: res)
          | .error e => .error e
        else .error "Could not approximate roots with exact values"

/-- `roots_interval(f, x0)` with the fiber roots passed explicitly. -/
def roots_interval (absF : QC → ℚ) (fx : Poly) (roots : List QC) (fuel : ℕ) :
    Except String (List (QC × CBox)) :=
  rootsIntervalGo absF fx fuel [] roots

/-! ## `corrected_voronoi_diagram` (source lines 185–239) -/

/-- Modelled from the spec: a region of the Voronoi diagram produced by the
generic convex-cell decomposition collaborator (§6: "Voronoi diagram of a
finite rational point set with region/vertex/edge/ray introspection"),
exposing exactly the introspection the source uses: the region's site
(`r[0].affine()`), whether it has rays, and its interior-membership test. -/
structure VRegion where
  site : ℚ × ℚ
  hasRays : Bool
  interiorContains : ℚ × ℚ → Bool

/-- Precision escalation of `corrected_voronoi_diagram` (source line 234:
`prec += 53`). -/
def voronoiPrecStep (prec : ℕ) : ℕ := prec + 53

/-- `QQ(RF(prec)(q))`: round to the nearest dyadic with `prec` fractional
bits (model of the floating rounding performed via `RealField(prec)`). -/
def roundRF (prec : ℕ) (q : ℚ) : ℚ := (round (q * 2 ^ prec) : ℚ) / 2 ^ prec

def roundPt (prec : ℕ) (p : ℚ × ℚ) : ℚ × ℚ := (roundRF prec p.1, roundRF prec p.2)

/-- Python `dict` built from a list of key/value pairs: later bindings
overwrite earlier ones, so lookup returns the last matching value. -/
def dictLookup (l : List ((ℚ × ℚ) × (ℚ × ℚ))) (k : ℚ × ℚ) : Option (ℚ × ℚ) :=
  (l.reverse.find? (fun kv => kv.1 = k)).map (·.2)

/-- Keys of such a dict, in first-insertion order. -/
def dedupFirst : List (ℚ × ℚ) → List (ℚ × ℚ)
  | [] => []
  | a :: t => a :: (dedupFirst t).filter (· ≠ a)

/-- The dict `{(QQ(RF(p[0])), QQ(RF(p[1]))): p}` of source line 224. -/
def apprAt (prec : ℕ) (pts : List (ℚ × ℚ)) : List ((ℚ × ℚ) × (ℚ × ℚ)) :=
  pts.map (fun p => (roundPt prec p, p))

/-- `max(map(abs, flatten(apprpoints)))` (source line 225; `none` when the
point set is empty, where Python's `max` raises). -/
def maxAbsCoord (keys : List (ℚ × ℚ)) : Option ℚ :=
  match (keys.map (fun k => [|k.1|, |k.2|])).flatten with
  | [] => none
  | c :: rest => some (rest.foldl max c)

/-- The rational configuration handed to `VoronoiDiagram` (source lines
225–229): the rounded points plus four auxiliary far-away points. -/
def voronoiConfigAt (prec : ℕ) (pts : List (ℚ × ℚ)) : Option (List (ℚ × ℚ)) :=
  match maxAbsCoord (dedupFirst ((apprAt prec pts).map (·.1))) with
  | none => none
  | some m =>
    let a := 3 * m + 1
    some (dedupFirst ((apprAt prec pts).map (·.1)) ++ [(a, 0), (-a, 0), (0, a), (0, -a)])

/-- The `for r in V.regions().items()` validation scan (source lines
232–236): `ok true` = every rayless region passed, `ok false` = some
rayless region failed containment (retry), `error` = the dict lookup
`apprpoints[r[0].affine()]` raised `KeyError`. -/
def scanRegions (appr : List ((ℚ × ℚ) × (ℚ × ℚ))) : List VRegion → Except String Bool
  | [] => .ok true
  | r :: rest =>
    if r.hasRays then scanRegions appr rest
    else
      match dictLookup appr r.site with
      | none => .error "KeyError"
      | some orig =>
        if r.interiorContains orig then scanRegions appr rest else .ok false

/-- `corrected_voronoi_diagram(points)` (source lines 220–239), the diagram
constructor `VD` being the external cell-decomposition collaborator. -/
def corrected_voronoi_diagram (VD : List (ℚ × ℚ) → List VRegion)
    (pts : List (ℚ × ℚ)) : ℕ → ℕ → Except String (List VRegion)
  | 0, _ => .error "precision escalation did not terminate"
  | fuel + 1, prec =>
    match voronoiConfigAt prec pts with
    | none => .error "max() arg is an empty sequence"
    | some config =>
      let V := VD config
      match scanRegions (apprAt prec pts) V with
      | .error e => .error e
      | .ok true => .ok V
      | .ok false => corrected_voronoi_diagram VD pts fuel (voronoiPrecStep prec)

/-! ## `braid_in_segment`, root-isolation phase (source lines 614–627)

For each irreducible factor `f` of the curve, the exact roots `y0sf` of
`f(X0, y)` are converted to intervals at increasing precision until no two
intervals of that factor overlap. -/

/-- Precision escalation of the interval loop in `braid_in_segment`
(source line 627: `precision[f] *= 2`). -/
def braidPrecStep (prec : ℕ) : ℕ := prec * 2

/-- Modelled from the spec: `r.interval(CIFp)`, conversion of an exact root
by the interval-arithmetic collaborator ("interval construction at
arbitrary bit precision", §6) — the smallest dyadic box with `prec`
fractional bits containing the value. -/
def intervalAt (prec : ℕ) (z : QC) : CBox :=
  ⟨⟨(⌊z.re * 2 ^ prec⌋ : ℚ) / 2 ^ prec, (⌈z.re * 2 ^ prec⌉ : ℚ) / 2 ^ prec⟩,
   ⟨(⌊z.im * 2 ^ prec⌋ : ℚ) / 2 ^ prec, (⌈z.im * 2 ^ prec⌉ : ℚ) / 2 ^ prec⟩⟩

/-- `any(a.overlaps(b) for a, b in itertools.combinations(l, 2))`. -/
def anyOverlap : List CBox → Bool
  | [] => false
  | b :: t => t.any (fun b2 => b.overlaps b2) || anyOverlap t

/-- The `while True` interval loop of `braid_in_segment` for one factor
(source lines 622–627): returns the exit precision and the intervals. -/
def braidInSegmentIsolate (y0sf : List QC) : ℕ → ℕ → Option (ℕ × List CBox)
  | 0, _ => none
  | fuel + 1, prec =>
    let ivals := y0sf.map (intervalAt prec)
    if anyOverlap ivals then braidInSegmentIsolate y0sf fuel (braidPrecStep prec)
    else some (prec, ivals)

/-! ## `braid_in_segment`, endpoint-matching phase (source lines 635–655) -/

/-- A piecewise strand: a list of `(t, y_re, y_im)` samples. -/
abbrev Strand := List (ℚ × ℚ × ℚ)

/-- The initial endpoint `ip = cs[0][1] + I*cs[0][2]` of a strand. -/
def strandInit (cs : Strand) : QC :=
  ⟨(cs.headD (0, 0, 0)).2.1, (cs.headD (0, 0, 0)).2.2⟩

/-- The final endpoint `fp = cs[-1][1] + I*cs[-1][2]` of a strand. -/
def strandFinal (cs : Strand) : QC :=
  ⟨(cs.getLastD (0, 0, 0)).2.1, (cs.getLastD (0, 0, 0)).2.2⟩

/-- The entries of an interval map whose interval contains `z`. -/
def matching (m : List (QC × CBox)) (z : QC) : List (QC × CBox) :=
  m.filter (fun ci => ci.2.containsPt z)

/-- The `for cs in complexstrands` matching loop of `braid_in_segment`
(source lines 635–655): for each strand, exactly one interval of the map at
`x0` must contain its initial point and exactly one interval of the map at
`x1` its final point; the short initial/final correction strands are
collected, otherwise a `ValueError` is raised. -/
def matchStrandsGo (ii fi : List (QC × CBox)) :
    List Strand → Except String (List Strand × List Strand)
  | [] => .ok ([], [])
  | cs :: rest =>
    let a := cs.headD (0, 0, 0)
    let b := cs.getLastD (0, 0, 0)
    let mi := matching ii (strandInit cs)
    if mi.length = 0 then .error "unable to match braid endpoint with root"
    else if 1 < mi.length then .error "braid endpoint mathes more than one root"
    else
      let mf := matching fi (strandFinal cs)
      if mf.length = 0 then .error "unable to match braid endpoint with root"
      else if 1 < mf.length then .error "braid endpoint mathes more than one root"
      else
        match matchStrandsGo ii fi rest with
        | .error e => .error e
        | .ok (accI, accF) =>
          .ok ((mi.map (fun ci => [((0 : ℚ), ci.1.re, ci.1.im), ((1 : ℚ), a.2.1, a.2.2)])) ++ accI,
               (mf.map (fun ci => [((0 : ℚ), b.2.1, b.2.2), ((1 : ℚ), ci.1.re, ci.1.im)])) ++ accF)

/-- The matching phase of `braid_in_segment`, taking the continuation
strands and the two cached isolating-interval maps. -/
def braid_in_segment_match (css : List Strand) (ii fi : List (QC × CBox)) :
    Except String (List Strand × List Strand) :=
  matchStrandsGo ii fi css

/-! ## `followstrand` (source lines 295–393)

Bivariate polynomials are monomial lists `(i, j, c)` (the coefficient `c`
of `x^i y^j`); Sage's `f.degree()` with no argument is the total degree. -/

/-- A bivariate polynomial as a list of monomials `(i, j, coefficient)`. -/
abbrev BPoly := List (ℕ × ℕ × QC)

namespace BPoly

/-- The coefficient of `x^i y^j` (duplicate monomials summed). -/
def coeff (f : BPoly) (i j : ℕ) : QC :=
  (f.filter (fun m => m.1 = i ∧ m.2.1 = j)).foldl (fun acc m => acc + m.2.2) 0

/-- Exact evaluation at `(x, y)`. -/
def eval (f : BPoly) (x y : QC) : QC :=
  f.foldl (fun acc m => acc + m.2.2 * x ^ m.1 * y ^ m.2.1) 0

/-- Sage's `f.degree()`: the total degree (max of `i + j` over nonzero
monomials). -/
def totalDegree (f : BPoly) : ℕ :=
  ((f.filter (fun m => m.2.2 ≠ 0)).map (fun m => m.1 + m.2.1)).foldl max 0

/-- The degree in the second variable `y`. -/
def degY (f : BPoly) : ℕ :=
  ((f.filter (fun m => m.2.2 ≠ 0)).map (fun m => m.2.1)).foldl max 0

/-- Coefficient of `y^j` in the specialization `f(x0, y)`. -/
def specCoeff (f : BPoly) (x0 : QC) (j : ℕ) : QC :=
  (f.filter (fun m => m.2.1 = j)).foldl (fun acc m => acc + m.2.2 * x0 ^ m.1) 0

end BPoly

/-- Modelled from the spec: `CF[y](g.subs({x: x0})).roots()[0][0]`, the
root-finding collaborator applied to the (degree-one) specialization — the
unique root `-c/b` of `b·y + c`; `none` models the `IndexError` of
`roots()[0]` when the specialization is constant. -/
def linearRoot (f : BPoly) (x0 : QC) : Option QC :=
  let b := f.specCoeff x0 1
  if b = 0 then none else some (-(f.specCoeff x0 0) * QC.inv b)

/-- Result of `followstrand`: either the explicit polyline of the
degenerate linear branch, or delegation to the certified `sirocco`
continuation library (general branch, source lines 349–393). -/
inductive FollowResult where
  | polyline (pts : List (ℚ × ℚ × ℚ))
  | sirocco
  deriving DecidableEq, Repr

/-- `followstrand(f, factors, x0, x1, y0a, prec)` branch structure (source
lines 341–348): the degenerate branch is taken exactly when
`f.degree() == 1` (the total degree), in which case the two endpoint fibers
are solved linearly and the two-point polyline is returned. -/
def followstrand (f : BPoly) (factors : List BPoly) (x0 x1 : QC) (y0a : QC)
    (prec : ℕ) : Option FollowResult :=
  if f.totalDegree = 1 then
    match linearRoot f x0, linearRoot f x1 with
    | some y0, some y1 =>
      some (.polyline [(0, y0.re, y0.im), (1, y1.re, y1.im)])
    | _, _ => none
  else some .sirocco

/-! ## `braid_from_piecewise` (source lines 63–150) -/

/-- A point of the complex plane as an explicit pair (the `[c1, c2]` lists
of the source). -/
abbrev Pt := ℚ × ℚ

/-- `val[n][0]`, the `t`-value of the `n`-th sample of a strand. -/
def strandT (cs : Strand) (n : ℕ) : ℚ := (cs.getD n (0, 0, 0)).1

/-- `[val[n][1], val[n][2]]`, the point of the `n`-th sample of a strand. -/
def strandPt (cs : Strand) (n : ℕ) : Pt :=
  ((cs.getD n (0, 0, 0)).2.1, (cs.getD n (0, 0, 0)).2.2)

/-- Linear interpolation between samples `idx-1` and `idx` at time `i`
(source lines 92–100). -/
def interpPt (cs : Strand) (idx : ℕ) (i : ℚ) : Pt :=
  let xa := strandPt cs (idx - 1)
  let ya := strandPt cs idx
  let aaux := strandT cs (idx - 1)
  let baux := strandT cs idx
  (xa.1 + (ya.1 - xa.1) * (i - aaux) / (baux - aaux),
   xa.2 + (ya.2 - xa.2) * (i - aaux) / (baux - aaux))

/-- Python's `min` over a list of rationals (`none` on the empty list). -/
def minQ : List ℚ → Option ℚ
  | [] => none
  | a :: t => some (t.foldl min a)

/-- The breakpoint-merging `while i < 1` loop (source lines 89–105). -/
def mergeLoop (L : List Strand) : ℕ → ℚ → List ℕ → List (List Pt) →
    Option (List (List Pt))
  | 0, _, _, _ => none
  | fuel + 1, i, indices, tp =>
    if i < 1 then
      let upd := List.zipWith (fun cs idx =>
        if i < strandT cs idx then (interpPt cs idx i, idx)
        else (strandPt cs idx, idx + 1)) L indices
      let tp' := List.zipWith (fun row p => row ++ [p.1]) tp upd
      let indices' := upd.map (·.2)
      match minQ (List.zipWith (fun cs idx => strandT cs idx) L indices') with
      | none => none
      | some i' => mergeLoop L fuel i' indices' tp'
    else some tp

/-- `totalpoints` after merging and appending the final samples (source
lines 86–108). -/
def mergedTable (fuel : ℕ) (strands : List Strand) : Option (List (List Pt)) :=
  match minQ (strands.map (fun v => strandT v 1)) with
  | none => none
  | some i0 =>
    match mergeLoop strands fuel i0 (strands.map (fun _ => 1))
        (strands.map (fun cs => [strandPt cs 0])) with
    | none => none
    | some tp =>
      some (List.zipWith (fun row cs => row ++ [strandPt cs (cs.length - 1)]) tp strands)

/-- The sign function of source lines 112–117. -/
def sgn (x y : ℚ) : ℤ := if x < y then 1 else if x > y then -1 else 0

/-- Python's `<` on point lists `[re, im]` (lexicographic). -/
def ptLtB (a b : Pt) : Bool := decide (a.1 < b.1 ∨ (a.1 = b.1 ∧ a.2 < b.2))

/-- Python's `≤` on pairs of point lists (lexicographic), the order used by
`M.sort()`. -/
def ptPairLeB (a b : Pt × Pt) : Bool :=
  ptLtB a.1 b.1 || (decide (a.1 = b.1) && (ptLtB a.2 b.2 || decide (a.2 = b.2)))

/-- Insertion into a sorted list. -/
def insIns (le : α → α → Bool) (x : α) : List α → List α
  | [] => [x]
  | y :: t => if le x y then x :: y :: t else y :: insIns le x t

/-- Python's `list.sort()` (insertion sort on the given order). -/
def insSort (le : α → α → Bool) : List α → List α
  | [] => []
  | x :: t => insIns le x (insSort le t)

/-- The crossing-detection double loop (source lines 126–131): entries
`(t, k, j, s)` for each pair whose vertical order flips in this interval. -/
def crucesOf (l1 l2 : List Pt) : List (ℚ × ℕ × ℕ × ℤ) :=
  (List.range l2.length).flatMap (fun j =>
    (List.range j).filterMap (fun k =>
      let l1j := l1.getD j (0, 0)
      let l1k := l1.getD k (0, 0)
      let l2j := l2.getD j (0, 0)
      let l2k := l2.getD k (0, 0)
      if ptLtB l2j l2k then
        let t := (l1j.1 - l1k.1) / ((l2k.1 - l2j.1) + (l1j.1 - l1k.1))
        some (t, k, j, sgn (l1k.2 * (1 - t) + t * l2k.2) (l1j.2 * (1 - t) + t * l2j.2))
      else none))

/-- Lexicographic order on `[t, k, j, s]` entries (Python's `cruces.sort()`). -/
def cruxLe (a b : ℚ × ℕ × ℕ × ℤ) : Bool :=
  decide (a.1 < b.1) || (decide (a.1 = b.1) &&
    (decide (a.2.1 < b.2.1) || (decide (a.2.1 = b.2.1) &&
      (decide (a.2.2.1 < b.2.2.1) || (decide (a.2.2.1 = b.2.2.1) &&
        decide (a.2.2.2 ≤ b.2.2.2))))))

/-- Lexicographic order on relabelled crossings (Python's `crossesl.sort()`). -/
def crossLe (a b : ℤ × ℕ × ℕ × ℤ) : Bool :=
  decide (a.1 < b.1) || (decide (a.1 = b.1) &&
    (decide (a.2.1 < b.2.1) || (decide (a.2.1 = b.2.1) &&
      (decide (a.2.2.1 < b.2.2.1) || (decide (a.2.2.1 = b.2.2.1) &&
        decide (a.2.2.2 ≤ b.2.2.2))))))

/-- The transposition `(a b)` of `SymmetricGroup`. -/
def transp (a b x : ℕ) : ℕ := if x = a then b else if x = b then a else x

/-- Relabelling of a pending crossing by the running permutation
(`(P(c[2]+1) - P(c[1]+1), c[1], c[2], c[3])`). -/
def relabel (P : ℕ → ℕ) (c : ℚ × ℕ × ℕ × ℤ) : ℤ × ℕ × ℕ × ℤ :=
  ((P (c.2.2.1 + 1) : ℤ) - (P (c.2.1 + 1) : ℤ), c.2.1, c.2.2.1, c.2.2.2)

/-- The inner `while crossesl` loop (source lines 141–147): repeatedly sort,
emit the smallest pending transposition as a signed generator, compose the
running permutation (Sage multiplies permutations left-to-right), relabel.
Returns the emitted word and the final permutation. -/
def resolveCrosses : ℕ → (ℕ → ℕ) → List (ℤ × ℕ × ℕ × ℤ) → List ℤ × (ℕ → ℕ)
  | 0, P, _ => ([], P)
  | fuel + 1, P, l =>
    match insSort crossLe l with
    | [] => ([], P)
    | c :: rest =>
      let gen := c.2.2.2 * (min (P (c.2.1 + 1)) (P (c.2.2.1 + 1)) : ℤ)
      let P' := fun x => P (transp (c.2.1 + 1) (c.2.2.1 + 1) x)
      match resolveCrosses fuel P'
          (rest.map (fun cr => ((P' (cr.2.2.1 + 1) : ℤ) - (P' (cr.2.1 + 1) : ℤ),
                                cr.2.1, cr.2.2.1, cr.2.2.2))) with
      | (w, Pf) => (gen :: w, Pf)

/-- The outer `while cruces` loop (source lines 135–147): peel off the
crossings sharing the smallest `t`, resolve them, continue with the
permutation reached. -/
def resolveCruces : ℕ → (ℕ → ℕ) → List (ℚ × ℕ × ℕ × ℤ) → List ℤ
  | 0, _, _ => []
  | _, _, [] => []
  | fuel + 1, P, c0 :: ctail =>
    let cruces := c0 :: ctail
    let crucesl := cruces.filter (fun c => decide (c.1 = c0.1))
    match resolveCrosses crucesl.length P (crucesl.map (relabel P)) with
    | (w, P') => w ++ resolveCruces fuel P' (cruces.drop crucesl.length)

/-- The `M.sort()`-ed crossing list of the time interval `[i, i+1]` of a
merged table (source lines 118–131). -/
def crossingsAt (tp : List (List Pt)) (i : ℕ) : List (ℚ × ℕ × ℕ × ℤ) :=
  let l1 := tp.map (fun row => row.getD i (0, 0))
  let l2 := tp.map (fun row => row.getD (i + 1) (0, 0))
  let M := insSort ptPairLeB (List.zip l1 l2)
  crucesOf (M.map (·.1)) (M.map (·.2))

/-- The generators emitted for the time interval `[i, i+1]` (source lines
132–147); an interval without crossings contributes nothing. -/
def stepWord (tp : List (List Pt)) (i : ℕ) : List ℤ :=
  let cruces := crossingsAt tp i
  if cruces.isEmpty then []
  else resolveCruces cruces.length (fun x => x) (insSort cruxLe cruces)

/-- Modelled from the spec: an element of the braid group on `strands`
strands, "represented as a word of signed generator indices" (§3); the
braid-group object model is an external collaborator (§1).  The identity is
the empty word. -/
structure Braid where
  strands : ℕ
  word : List ℤ
  deriving DecidableEq, Repr

/-- `braid_from_piecewise(strands)` (source lines 63–150). -/
def braid_from_piecewise (fuel : ℕ) (strands : List Strand) : Option Braid :=
  match mergedTable fuel strands with
  | none => none
  | some tp =>
    let cols := (tp.headD []).length
    some ⟨strands.length, (List.range (cols - 1)).flatMap (stepWord tp)⟩

/-! ## Finite graphs (model of the Sage `Graph` collaborator)

Only the operations the source uses are provided: vertex deletion,
degrees, reachability, connected-component count. -/

/-- A finite undirected graph: explicit vertex list and edge list. -/
structure SGraph (α : Type) where
  verts : List α
  edges : List (α × α)
  deriving DecidableEq, Repr

namespace SGraph

variable {α : Type} [DecidableEq α]

/-- `delete_vertices`: remove the vertices and all incident edges. -/
def deleteVertices (g : SGraph α) (vs : List α) : SGraph α :=
  ⟨g.verts.filter (fun v => decide (v ∉ vs)),
   g.edges.filter (fun e => decide (e.1 ∉ vs ∧ e.2 ∉ vs))⟩

def adjacentB (g : SGraph α) (a b : α) : Bool :=
  g.edges.any (fun e => decide ((e.1 = a ∧ e.2 = b) ∨ (e.1 = b ∧ e.2 = a)))

def degree (g : SGraph α) (v : α) : ℕ :=
  (g.edges.filter (fun e => decide (e.1 = v ∨ e.2 = v))).length

/-- One breadth step of reachability. -/
def expand (g : SGraph α) (s : List α) : List α :=
  s ++ g.verts.filter (fun v => decide (v ∉ s) && s.any (fun u => adjacentB g u v))

/-- Vertices reachable from `v` (fixed point after `|V|` breadth steps). -/
def reach (g : SGraph α) (v : α) : List α := (expand g)^[g.verts.length] [v]

def compCountGo (g : SGraph α) : List α → List α → ℕ
  | [], _ => 0
  | v :: rest, visited =>
    if decide (v ∈ visited) then compCountGo g rest visited
    else 1 + compCountGo g rest (visited ++ reach g v)

/-- `connected_components_number()`. -/
def compCount (g : SGraph α) : ℕ := compCountGo g g.verts []

def connectedB (g : SGraph α) : Bool :=
  match g.verts with
  | [] => true
  | v :: _ => g.verts.all (fun u => decide (u ∈ reach g v))

/-- Modelled from the spec: `E.is_cycle()` of the graph collaborator — "E
is a single cycle": nonempty, connected, every vertex of degree two. -/
def isCycleB (g : SGraph α) : Bool :=
  connectedB g && !g.verts.isEmpty && g.verts.all (fun v => decide (degree g v = 2))

end SGraph

/-! ## `geometric_basis`, the cut consistency check (source lines 823–832) -/

/-- The post-cut consistency check of `geometric_basis`: copy `G` and `E`,
delete the cut-path vertices from `G` and `{q, r}` from `E`, and raise
`ValueError` unless `G` fell into exactly two connected components (source
lines 824–831). -/
def geometricBasisCutStep [DecidableEq α] (G E : SGraph α) (cutpath : List α)
    (q r : α) : Except String (SGraph α × SGraph α) :=
  let Gcut := G.deleteVertices cutpath
  let Ecut := E.deleteVertices [q, r]
  if Gcut.compCount ≠ 2 then .error "unable to compute a correct path"
  else .ok (Gcut, Ecut)

/-- The graph named by the claim (refinement comparison, following the
claim's words rather than the source): `G` with only the cut path's
*internal* vertices removed. -/
def claimCutGraph [DecidableEq α] (G : SGraph α) (cutpath : List α) : SGraph α :=
  G.deleteVertices ((cutpath.drop 1).dropLast)

/-! ## `orient_circuit` (source lines 662–723) and the `geometric_basis`
base case (source lines 795–800)

The total signed turning angle is a sum of arguments of complex interval
quotients; the precision-escalation loop accepts the first precision at
which the interval sign is unambiguous.  Idealised over exact reals: the
sign of the exact total angle decides, and an exact zero (on which the
source escalates forever) is `none`. -/

/-- A vertex of the Voronoi graph. -/
abbrev QPt := ℚ × ℚ

/-- A circuit as a list of directed edges between vertices. -/
abbrev Circuit := List (QPt × QPt)

/-- `v[1].vector() - v[0].vector()` as a complex number. -/
noncomputable def vecC (e : QPt × QPt) : ℂ :=
  ((e.2.1 - e.1.1 : ℚ) : ℝ) + ((e.2.2 - e.1.2 : ℚ) : ℝ) * Complex.I

/-- Rotate a list left by one. -/
def rotL : List α → List α
  | [] => []
  | a :: t => t ++ [a]

/-- Rotate a list right by one (`vectors[i-1]` with Python's wraparound). -/
def rotR (l : List α) : List α :=
  match l.reverse with
  | [] => []
  | x :: t => x :: t.reverse

/-- The quotients `vectors[i]/vectors[i-1]` of source line 717. -/
noncomputable def ratios (c : Circuit) : List ℂ :=
  List.zipWith (· / ·) (c.map vecC) (rotR (c.map vecC))

/-- `totalangle`, the total signed turning angle (source line 717). -/
noncomputable def totalAngle (c : Circuit) : ℝ :=
  ((ratios c).map Complex.arg).sum

/-- `list(reversed([(c[1], c[0]) + c[2:] for c in circuit]))` (source line
719): the exact reverse of a circuit. -/
def reverseSwap (c : Circuit) : Circuit :=
  (c.map (fun e => (e.2, e.1))).reverse

/-- `orient_circuit(circuit)` (source lines 713–723): reverse a clockwise
circuit, keep a counterclockwise one; on an exactly-zero angle the source
escalates precision forever (`none`). -/
noncomputable def orient_circuit (c : Circuit) : Option Circuit :=
  if totalAngle c < 0 then some (reverseSwap c)
  else if 0 < totalAngle c then some c
  else none

/-- `EC`, the vertex sequence read off an oriented circuit (source line 795). -/
def circuitVerts (oc : Circuit) : List QPt := oc.map (·.1)

/-- `EC = EC[i:] + EC[:i+1]` where `i = EC.index(p)` (source lines 796–797). -/
def rebase (p : QPt) (ec : List QPt) : List QPt :=
  ec.drop (ec.indexOf p) ++ ec.take (ec.indexOf p + 1)

/-- One unfolding of `geometric_basis`: either the base case returned a
basis, or control reached the recursive case (source lines 801–874, not at
issue in the claims treated here). -/
inductive GBStep where
  | basis (b : List (List QPt))
  | recursiveCase

/-- The top of `geometric_basis(G, E, p)` (source lines 795–800): orient
the Eulerian circuit of `E` (obtained from the external graph library),
re-base it at `p`, and return it as the sole basis element when `G` and `E`
have the same number of edges and `E` is a single cycle. -/
noncomputable def geometric_basis_step (G E : SGraph QPt) (p : QPt)
    (eulerianCircuit : Circuit) : Option GBStep :=
  match orient_circuit eulerianCircuit with
  | none => none
  | some oc =>
    let EC := rebase p (circuitVerts oc)
    if G.edges.length = E.edges.length ∧ E.isCycleB then some (.basis [EC])
    else some .recursiveCase

/-! ## Claim C2: the precision-escalation schedule -/

/-- C2, counterexample.  The claim asserts that each retry of
`roots_interval` and of `corrected_voronoi_diagram` doubles the working
precision.  Both loops instead add 53 bits (`prec += 53`): after the second
failure the precision is 159 bits, not double the 106 bits of the second
attempt. -/
theorem precision_escalation_doubling_cex :
    rootsIntervalPrecStep 53 = 106 ∧
    rootsIntervalPrecStep (rootsIntervalPrecStep 53) = 159 ∧
    rootsIntervalPrecStep (rootsIntervalPrecStep 53) ≠ 2 * rootsIntervalPrecStep 53 ∧
    voronoiPrecStep 53 = 106 ∧
    voronoiPrecStep (voronoiPrecStep 53) = 159 ∧
    voronoiPrecStep (voronoiPrecStep 53) ≠ 2 * voronoiPrecStep 53 := by
  decide

/-- C2, amended.  In `roots_interval` and in `corrected_voronoi_diagram`
every precision-escalation retry *adds 53 bits* to the working precision
(so attempt `n` runs at `53 + 53·n` bits); it is the shrink divisor of
`roots_interval` that doubles on each retry. -/
theorem precision_escalation_increment_amended :
    ∀ n : ℕ,
      rootsIntervalPrecStep^[n] 53 = 53 + 53 * n ∧
      voronoiPrecStep^[n] 53 = 53 + 53 * n ∧
      rootsIntervalDivisorStep^[n] 4 = 4 * 2 ^ n := by
  intro n
  induction n with
  | zero => simp
  | succ k ih =>
    refine ⟨?_, ?_, ?_⟩ <;>
      simp only [Function.iterate_succ_apply', ih.1, ih.2.1, ih.2.2,
        rootsIntervalPrecStep, voronoiPrecStep, rootsIntervalDivisorStep] <;>
      ring

/-! ## Claim C9: `roots_interval` on small fibers -/

/-- C9, counterexample.  The claim asserts that success of `roots_interval`
requires at least two distinct fiber roots; but on a fiber with *no* roots
(e.g. `f = x·y - 1` at `x0 = 0`, whose specialization is the nonzero
constant `-1`) the loop body never runs and the empty interval map is
returned successfully. -/
theorem roots_interval_empty_fiber_cex :
    roots_interval (fun z => max |z.re| |z.im|) [⟨-1, 0⟩] ([] : List QC) 1 = .ok [] ∧
    ([] : List QC).length < 2 := by
  exact ⟨rfl, by decide⟩

/-- C9, amended.  If the fiber has exactly one root, `roots_interval`
raises (Python's `min` over the empty collection of other roots) instead of
returning a one-entry map; consequently success requires the fiber root
count to be different from one (zero roots yield the empty map, two or more
can succeed). -/
theorem roots_interval_single_root_amended :
    ∀ (absF : QC → ℚ) (fx : Poly) (fuel : ℕ) (roots : List QC),
      (roots.length = 1 →
        roots_interval absF fx roots fuel = .error "min() arg is an empty sequence") ∧
      (∀ m, roots_interval absF fx roots fuel = .ok m → roots.length ≠ 1) := by
  intro absF fx fuel roots
  have key : roots.length = 1 →
      roots_interval absF fx roots fuel = .error "min() arg is an empty sequence" := by
    intro h
    match roots, h with
    | [r], _ => simp [roots_interval, rootsIntervalGo, minDist]
  refine ⟨key, ?_⟩
  intro m hm hlen
  rw [key hlen] at hm
  exact absurd hm (by simp)

/-- C9, witness: a concrete one-root fiber on which `roots_interval`
raises. -/
theorem roots_interval_single_root_amended_witness :
    roots_interval (fun z => max |z.re| |z.im|) [⟨0, 0⟩, ⟨1, 0⟩] [⟨2, 3⟩] 5 =
      .error "min() arg is an empty sequence" :=
  (roots_interval_single_root_amended (fun z => max |z.re| |z.im|)
    [⟨0, 0⟩, ⟨1, 0⟩] 5 [⟨2, 3⟩]).1 rfl

/-! ## Claim C4: the cut consistency check of `geometric_basis` -/

/-- C4, counterexample.  The claim asserts that the two-component test (and
`ValueError`) concerns `G` with only the cut path's *internal* vertices
removed.  The source deletes *all* cut-path vertices (including the
endpoints `q`, `r`).  On the graph below with cut path `0-1-2`, removing
only the internal vertex `1` leaves exactly two components, yet the source
raises `ValueError` because removing `0`, `1`, `2` leaves three. -/
theorem geometric_basis_cut_internal_cex :
    (claimCutGraph (⟨[0, 1, 2, 3, 4, 5], [(0, 1), (1, 2), (0, 3), (0, 4), (2, 5)]⟩ :
        SGraph ℕ) [0, 1, 2]).compCount = 2 ∧
    geometricBasisCutStep
      (⟨[0, 1, 2, 3, 4, 5], [(0, 1), (1, 2), (0, 3), (0, 4), (2, 5)]⟩ : SGraph ℕ)
      (⟨[0, 2], []⟩ : SGraph ℕ) [0, 1, 2] 0 2 =
      .error "unable to compute a correct path" :=
  ⟨by decide, rfl⟩

/-- C4, amended.  After the cut path is chosen, `geometric_basis` removes
*all* the cut path's vertices (including `q` and `r`) from `G` and `{q,r}`
from `E`; it raises a `ValueError` exactly when the vertex-deleted `G` does
not have exactly two connected components, and otherwise proceeds with the
two deleted graphs. -/
theorem geometric_basis_cut_check_amended :
    ∀ (G E : SGraph ℕ) (cutpath : List ℕ) (q r : ℕ),
      (geometricBasisCutStep G E cutpath q r = .error "unable to compute a correct path" ↔
        (G.deleteVertices cutpath).compCount ≠ 2) ∧
      (∀ res, geometricBasisCutStep G E cutpath q r = .ok res →
        res = (G.deleteVertices cutpath, E.deleteVertices [q, r]) ∧
        (G.deleteVertices cutpath).compCount = 2) := by
  intro G E cutpath q r
  by_cases h : (G.deleteVertices cutpath).compCount = 2 <;>
    simp [geometricBasisCutStep, h]

/-- C4, witness: a concrete cut on which the check succeeds and returns the
two vertex-deleted graphs. -/
theorem geometric_basis_cut_check_amended_witness :
    geometricBasisCutStep (⟨[0, 1, 2], [(0, 1), (1, 2)]⟩ : SGraph ℕ)
        (⟨[0, 2], []⟩ : SGraph ℕ) [1] 0 2 ≠
        .error "unable to compute a correct path" ∧
    (∀ res, geometricBasisCutStep (⟨[0, 1, 2], [(0, 1), (1, 2)]⟩ : SGraph ℕ)
        (⟨[0, 2], []⟩ : SGraph ℕ) [1] 0 2 = .ok res →
      res = ((⟨[0, 1, 2], [(0, 1), (1, 2)]⟩ : SGraph ℕ).deleteVertices [1],
             (⟨[0, 2], []⟩ : SGraph ℕ).deleteVertices [0, 2])) := by
  have h := geometric_basis_cut_check_amended (⟨[0, 1, 2], [(0, 1), (1, 2)]⟩ : SGraph ℕ)
    (⟨[0, 2], []⟩ : SGraph ℕ) [1] 0 2
  constructor
  · intro hc
    exact absurd (h.1.mp hc) (by decide)
  · intro res hres
    exact (h.2 res hres).1

/-! ## Claim C7: endpoint matching in `braid_in_segment` -/

theorem matchGo_cons (ii fi : List (QC × CBox)) (cs : Strand) (rest : List Strand) :
    matchStrandsGo ii fi (cs :: rest) =
      if (matching ii (strandInit cs)).length = 0 then
        .error "unable to match braid endpoint with root"
      else if 1 < (matching ii (strandInit cs)).length then
        .error "braid endpoint mathes more than one root"
      else if (matching fi (strandFinal cs)).length = 0 then
        .error "unable to match braid endpoint with root"
      else if 1 < (matching fi (strandFinal cs)).length then
        .error "braid endpoint mathes more than one root"
      else
        match matchStrandsGo ii fi rest with
        | .error e => .error e
        | .ok (accI, accF) =>
          .ok (((matching ii (strandInit cs)).map
                  (fun ci => [((0 : ℚ), ci.1.re, ci.1.im),
                              ((1 : ℚ), (cs.headD (0, 0, 0)).2.1, (cs.headD (0, 0, 0)).2.2)])) ++ accI,
               ((matching fi (strandFinal cs)).map
                  (fun ci => [((0 : ℚ), (cs.getLastD (0, 0, 0)).2.1, (cs.getLastD (0, 0, 0)).2.2),
                              ((1 : ℚ), ci.1.re, ci.1.im)])) ++ accF) := rfl

theorem matchGo_error_classify (ii fi : List (QC × CBox)) :
    ∀ (css : List Strand) (e : String), matchStrandsGo ii fi css = .error e →
      e = "unable to match braid endpoint with root" ∨
      e = "braid endpoint mathes more than one root" := by
  intro css
  induction css with
  | nil => intro e h; simp [matchStrandsGo] at h
  | cons cs rest ih =>
    intro e h
    rw [matchGo_cons] at h
    by_cases h1 : (matching ii (strandInit cs)).length = 0
    · rw [if_pos h1] at h
      injection h with he
      exact Or.inl he.symm
    · rw [if_neg h1] at h
      by_cases h2 : 1 < (matching ii (strandInit cs)).length
      · rw [if_pos h2] at h
        injection h with he
        exact Or.inr he.symm
      · rw [if_neg h2] at h
        by_cases h3 : (matching fi (strandFinal cs)).length = 0
        · rw [if_pos h3] at h
          injection h with he
          exact Or.inl he.symm
        · rw [if_neg h3] at h
          by_cases h4 : 1 < (matching fi (strandFinal cs)).length
          · rw [if_pos h4] at h
            injection h with he
            exact Or.inr he.symm
          · rw [if_neg h4] at h
            match hrec : matchStrandsGo ii fi rest with
            | .error e' =>
              rw [hrec] at h
              injection h with he
              exact he ▸ ih e' hrec
            | .ok (accI, accF) =>
              rw [hrec] at h
              simp at h

theorem matchGo_ok_iff (ii fi : List (QC × CBox)) :
    ∀ css : List Strand,
      (∃ v, matchStrandsGo ii fi css = .ok v) ↔
        ∀ cs ∈ css, (matching ii (strandInit cs)).length = 1 ∧
          (matching fi (strandFinal cs)).length = 1 := by
  intro css
  induction css with
  | nil => simp [matchStrandsGo]
  | cons cs rest ih =>
    rw [matchGo_cons]
    constructor
    · rintro ⟨v, hv⟩
      by_cases h1 : (matching ii (strandInit cs)).length = 0
      · rw [if_pos h1] at hv; exact absurd hv (by simp)
      · rw [if_neg h1] at hv
        by_cases h2 : 1 < (matching ii (strandInit cs)).length
        · rw [if_pos h2] at hv; exact absurd hv (by simp)
        · rw [if_neg h2] at hv
          by_cases h3 : (matching fi (strandFinal cs)).length = 0
          · rw [if_pos h3] at hv; exact absurd hv (by simp)
          · rw [if_neg h3] at hv
            by_cases h4 : 1 < (matching fi (strandFinal cs)).length
            · rw [if_pos h4] at hv; exact absurd hv (by simp)
            · rw [if_neg h4] at hv
              intro cs' hcs'
              rcases List.mem_cons.mp hcs' with h | h
              · subst h; exact ⟨by omega, by omega⟩
              · match hrec : matchStrandsGo ii fi rest with
                | .error e => rw [hrec] at hv; exact absurd hv (by simp)
                | .ok (accI, accF) =>
                  exact (ih.mp ⟨_, hrec⟩) cs' h
    · intro hall
      have hhd := hall cs (List.mem_cons_self cs rest)
      have h1 : ¬((matching ii (strandInit cs)).length = 0) := by omega
      have h2 : ¬(1 < (matching ii (strandInit cs)).length) := by omega
      have h3 : ¬((matching fi (strandFinal cs)).length = 0) := by omega
      have h4 : ¬(1 < (matching fi (strandFinal cs)).length) := by omega
      rw [if_neg h1, if_neg h2, if_neg h3, if_neg h4]
      obtain ⟨w, hw⟩ := ih.mpr (fun cs' h => hall cs' (List.mem_cons_of_mem cs h))
      obtain ⟨accI, accF⟩ := w
      rw [hw]
      exact ⟨_, rfl⟩

/-- C7.  In `braid_in_segment`, every continuation strand must match
exactly one isolating interval of the cached map at `x0` (its initial
endpoint) and exactly one of the map at `x1` (its final endpoint): the
matching phase succeeds iff every strand satisfies this; every failure is
one of the two `ValueError`s of the source (zero matches: "unable to match
braid endpoint with root"; several matches: "braid endpoint mathes more
than one root"), classified by the first offending endpoint, and then no
braid is produced. -/
theorem braid_in_segment_matching :
    ∀ (css : List Strand) (ii fi : List (QC × CBox)),
      ((∃ v, braid_in_segment_match css ii fi = .ok v) ↔
        ∀ cs ∈ css, (matching ii (strandInit cs)).length = 1 ∧
          (matching fi (strandFinal cs)).length = 1) ∧
      (∀ e, braid_in_segment_match css ii fi = .error e →
        e = "unable to match braid endpoint with root" ∨
        e = "braid endpoint mathes more than one root") ∧
      (∀ cs rest, css = cs :: rest →
        ((matching ii (strandInit cs)).length = 0 →
          braid_in_segment_match css ii fi = .error "unable to match braid endpoint with root") ∧
        (1 < (matching ii (strandInit cs)).length →
          braid_in_segment_match css ii fi = .error "braid endpoint mathes more than one root") ∧
        ((matching ii (strandInit cs)).length = 1 →
          (matching fi (strandFinal cs)).length = 0 →
          braid_in_segment_match css ii fi = .error "unable to match braid endpoint with root") ∧
        ((matching ii (strandInit cs)).length = 1 →
          1 < (matching fi (strandFinal cs)).length →
          braid_in_segment_match css ii fi = .error "braid endpoint mathes more than one root")) := by
  intro css ii fi
  refine ⟨matchGo_ok_iff ii fi css, matchGo_error_classify ii fi css, ?_⟩
  rintro cs rest rfl
  unfold braid_in_segment_match
  rw [matchGo_cons]
  refine ⟨?_, ?_, ?_, ?_⟩
  · intro h0; rw [if_pos h0]
  · intro h1
    rw [if_neg (by omega), if_pos h1]
  · intro h1 h0
    rw [if_neg (by omega), if_neg (by omega), if_pos h0]
  · intro h1 h2
    rw [if_neg (by omega), if_neg (by omega), if_neg (by omega), if_pos h2]

/-- C7, witness: concrete runs showing a zero-match failure, a
several-match failure, and a successful exact match. -/
theorem braid_in_segment_matching_witness :
    braid_in_segment_match [[(0, 0, 0), (1, 0, 0)]] [] [] =
      .error "unable to match braid endpoint with root" ∧
    braid_in_segment_match [[(0, 0, 0), (1, 0, 0)]]
      [(⟨0, 0⟩, ⟨⟨-1, 1⟩, ⟨-1, 1⟩⟩), (⟨0, 0⟩, ⟨⟨-2, 2⟩, ⟨-2, 2⟩⟩)] [] =
      .error "braid endpoint mathes more than one root" ∧
    (∃ v, braid_in_segment_match [[(0, 0, 0), (1, 0, 0)]]
      [(⟨0, 0⟩, ⟨⟨-1, 1⟩, ⟨-1, 1⟩⟩)] [(⟨0, 0⟩, ⟨⟨-1, 1⟩, ⟨-1, 1⟩⟩)] = .ok v) := by
  refine ⟨?_, ?_, ?_⟩
  · exact ((braid_in_segment_matching [[(0, 0, 0), (1, 0, 0)]] [] []).2.2
      [(0, 0, 0), (1, 0, 0)] [] rfl).1 (by decide)
  · exact ((braid_in_segment_matching [[(0, 0, 0), (1, 0, 0)]]
      [(⟨0, 0⟩, ⟨⟨-1, 1⟩, ⟨-1, 1⟩⟩), (⟨0, 0⟩, ⟨⟨-2, 2⟩, ⟨-2, 2⟩⟩)] []).2.2
      [(0, 0, 0), (1, 0, 0)] [] rfl).2.1 (by decide)
  · exact (braid_in_segment_matching [[(0, 0, 0), (1, 0, 0)]]
      [(⟨0, 0⟩, ⟨⟨-1, 1⟩, ⟨-1, 1⟩⟩)] [(⟨0, 0⟩, ⟨⟨-1, 1⟩, ⟨-1, 1⟩⟩)]).1.mpr
      (by decide)

/-! ## Claim C5: the containment guarantee of `corrected_voronoi_diagram` -/

theorem scanRegions_ok_true (appr : List ((ℚ × ℚ) × (ℚ × ℚ))) :
    ∀ regions : List VRegion, scanRegions appr regions = .ok true →
      ∀ r ∈ regions, r.hasRays = false →
        ∃ orig, dictLookup appr r.site = some orig ∧ r.interiorContains orig = true := by
  intro regions
  induction regions with
  | nil => intro _ r hr; exact absurd hr (by simp)
  | cons r0 rest ih =>
    intro h r hr hrays
    rw [scanRegions] at h
    by_cases hray0 : r0.hasRays
    · rw [if_pos hray0] at h
      rcases List.mem_cons.mp hr with rfl | hmem
      · exact absurd hrays (by simp [hray0])
      · exact ih h r hmem hrays
    · rw [if_neg hray0] at h
      match hlook : dictLookup appr r0.site with
      | none => rw [hlook] at h; exact absurd h (by simp)
      | some orig =>
        rw [hlook] at h
        dsimp only at h
        by_cases hcont : r0.interiorContains orig
        · rw [if_pos hcont] at h
          rcases List.mem_cons.mp hr with rfl | hmem
          · exact ⟨orig, hlook, hcont⟩
          · exact ih h r hmem hrays
        · rw [if_neg hcont] at h
          exact absurd h (by simp)

/-- C5.  `corrected_voronoi_diagram` only returns a diagram in which every
bounded region (no rays) contains, in its interior, the original unrounded
input point associated to the region's rounded rational site; the returned
diagram is the one built from the rounded configuration at the final
working precision. -/
theorem corrected_voronoi_containment :
    ∀ (VD : List (ℚ × ℚ) → List VRegion) (pts : List (ℚ × ℚ)) (fuel prec : ℕ)
      (V : List VRegion),
      corrected_voronoi_diagram VD pts fuel prec = .ok V →
      ∃ prec' config, voronoiConfigAt prec' pts = some config ∧ V = VD config ∧
        ∀ r ∈ V, r.hasRays = false →
          ∃ orig, dictLookup (apprAt prec' pts) r.site = some orig ∧
            r.interiorContains orig = true := by
  intro VD pts fuel
  induction fuel with
  | zero => intro prec V h; exact absurd h (by simp [corrected_voronoi_diagram])
  | succ k ih =>
    intro prec V h
    rw [corrected_voronoi_diagram] at h
    match hconf : voronoiConfigAt prec pts with
    | none => rw [hconf] at h; exact absurd h (by simp)
    | some config =>
      rw [hconf] at h
      dsimp only at h
      match hscan : scanRegions (apprAt prec pts) (VD config) with
      | .error e => rw [hscan] at h; exact absurd h (by simp)
      | .ok true =>
        rw [hscan] at h
        injection h with hV
        exact ⟨prec, config, hconf, hV.symm,
          hV ▸ scanRegions_ok_true (apprAt prec pts) (VD config) hscan⟩
      | .ok false =>
        rw [hscan] at h
        exact ih (voronoiPrecStep prec) V h

/-- C5, witness: a concrete diagram oracle and point set on which the
check passes at 53 bits. -/
theorem corrected_voronoi_containment_witness :
    ∃ prec' config,
      voronoiConfigAt prec' [((0 : ℚ), (0 : ℚ))] = some config ∧
      [(⟨(0, 0), false, fun _ => true⟩ : VRegion)] =
        (fun _ => [(⟨(0, 0), false, fun _ => true⟩ : VRegion)]) config ∧
      ∀ r ∈ [(⟨(0, 0), false, fun _ => true⟩ : VRegion)], r.hasRays = false →
        ∃ orig, dictLookup (apprAt prec' [((0 : ℚ), (0 : ℚ))]) r.site = some orig ∧
          r.interiorContains orig = true :=
  corrected_voronoi_containment (fun _ => [⟨(0, 0), false, fun _ => true⟩])
    [((0 : ℚ), (0 : ℚ))] 1 53 [⟨(0, 0), false, fun _ => true⟩] (by norm_num [corrected_voronoi_diagram, voronoiConfigAt, apprAt, roundPt, roundRF, maxAbsCoord, dedupFirst, scanRegions, dictLookup])

/-! ## Claim C3: the degenerate branch of `followstrand` -/

theorem qc_sq_sum_ne_zero {a : QC} (h : a ≠ 0) : a.re ^ 2 + a.im ^ 2 ≠ 0 := by
  intro hz
  apply h
  have h1 : a.re = 0 := by nlinarith [sq_nonneg a.re, sq_nonneg a.im]
  have h2 : a.im = 0 := by nlinarith [sq_nonneg a.re, sq_nonneg a.im]
  exact QC.ext' h1 h2

theorem qc_mul_inv {a : QC} (h : a ≠ 0) : a * QC.inv a = 1 := by
  have hz := qc_sq_sum_ne_zero h
  refine QC.ext' ?_ ?_ <;> simp [QC.inv] <;> field_simp <;> ring

theorem foldl_add_eq {β : Type} (g : β → QC) :
    ∀ (l : List β) (z : QC),
      l.foldl (fun acc m => acc + g m) z = z + (l.map g).sum := by
  intro l
  induction l with
  | nil => simp
  | cons m t ih =>
    intro z
    simp only [List.foldl_cons, List.map_cons, List.sum_cons, ih]
    ring

theorem eval_sum (f : BPoly) (x y : QC) :
    f.eval x y = (f.map (fun m => m.2.2 * x ^ m.1 * y ^ m.2.1)).sum := by
  have := foldl_add_eq (fun m : ℕ × ℕ × QC => m.2.2 * x ^ m.1 * y ^ m.2.1) f 0
  simpa [BPoly.eval] using this

theorem coeff_sum (f : BPoly) (i j : ℕ) :
    f.coeff i j = ((f.filter (fun m => decide (m.1 = i ∧ m.2.1 = j))).map
      (fun m => m.2.2)).sum := by
  have := foldl_add_eq (fun m : ℕ × ℕ × QC => m.2.2)
    (f.filter (fun m => decide (m.1 = i ∧ m.2.1 = j))) 0
  simpa [BPoly.coeff] using this

theorem specCoeff_sum (f : BPoly) (x0 : QC) (j : ℕ) :
    f.specCoeff x0 j = ((f.filter (fun m => decide (m.2.1 = j))).map
      (fun m => m.2.2 * x0 ^ m.1)).sum := by
  have := foldl_add_eq (fun m : ℕ × ℕ × QC => m.2.2 * x0 ^ m.1)
    (f.filter (fun m => decide (m.2.1 = j))) 0
  simpa [BPoly.specCoeff] using this

theorem foldl_max_ge : ∀ (l : List ℕ) (a : ℕ), (∀ x ∈ l, x ≤ l.foldl max a) ∧ a ≤ l.foldl max a := by
  intro l
  induction l with
  | nil => simp
  | cons m t ih =>
    intro a
    simp only [List.foldl_cons]
    constructor
    · intro x hx
      rcases List.mem_cons.mp hx with rfl | hmem
      · exact le_trans (le_max_right a x) (ih (max a x)).2
      · exact (ih (max a m)).1 x hmem
    · exact le_trans (le_max_left a m) (ih (max a m)).2

theorem support_of_totalDegree_le {f : BPoly} (h : f.totalDegree ≤ 1) :
    ∀ m ∈ f, m.2.2 ≠ 0 → m.1 + m.2.1 ≤ 1 := by
  intro m hm hc
  have hmem : m.1 + m.2.1 ∈ (f.filter (fun m => decide (m.2.2 ≠ 0))).map
      (fun m => m.1 + m.2.1) :=
    List.mem_map_of_mem _ (List.mem_filter.mpr ⟨hm, by simpa using hc⟩)
  exact le_trans ((foldl_max_ge _ 0).1 _ hmem) h

theorem specCoeff_one_eq {f : BPoly} (x0 : QC)
    (h : ∀ m ∈ f, m.2.2 ≠ 0 → m.1 + m.2.1 ≤ 1) :
    f.specCoeff x0 1 = f.coeff 0 1 := by
  induction f with
  | nil => simp [BPoly.specCoeff, BPoly.coeff]
  | cons m t ih =>
    have ht := ih (fun m' hm' => h m' (List.mem_cons_of_mem m hm'))
    obtain ⟨i, j, c⟩ := m
    rw [specCoeff_sum, coeff_sum] at ht ⊢
    simp only [List.filter_cons]
    match i, j with
    | i, 0 => simp [ht]
    | i, (j + 2) => simp [ht]
    | 0, 1 => simp [ht]
    | (i + 1), 1 =>
      have hc : c = 0 := by
        by_contra hc
        have h2 : i + 1 + 1 ≤ 1 := h _ (List.mem_cons_self _ _) hc
        omega
      subst hc
      simp [ht]

theorem specCoeff_zero_eq {f : BPoly} (x0 : QC)
    (h : ∀ m ∈ f, m.2.2 ≠ 0 → m.1 + m.2.1 ≤ 1) :
    f.specCoeff x0 0 = f.coeff 0 0 + f.coeff 1 0 * x0 := by
  induction f with
  | nil => simp [BPoly.specCoeff, BPoly.coeff]
  | cons m t ih =>
    have ht := ih (fun m' hm' => h m' (List.mem_cons_of_mem m hm'))
    obtain ⟨i, j, c⟩ := m
    rw [specCoeff_sum, coeff_sum, coeff_sum] at ht ⊢
    simp only [List.filter_cons]
    match i, j with
    | i, (j + 1) => simp [ht]
    | 0, 0 => simp [ht]; ring
    | 1, 0 => simp [ht]; ring
    | (i + 2), 0 =>
      have hc : c = 0 := by
        by_contra hc
        have h2 : i + 2 + 0 ≤ 1 := h _ (List.mem_cons_self _ _) hc
        omega
      subst hc
      simp [ht]

theorem eval_linear {f : BPoly} (x y : QC)
    (h : ∀ m ∈ f, m.2.2 ≠ 0 → m.1 + m.2.1 ≤ 1) :
    f.eval x y = f.coeff 0 0 + f.coeff 1 0 * x + f.coeff 0 1 * y := by
  induction f with
  | nil => simp [BPoly.eval, BPoly.coeff]
  | cons m t ih =>
    have ht := ih (fun m' hm' => h m' (List.mem_cons_of_mem m hm'))
    obtain ⟨i, j, c⟩ := m
    rw [eval_sum, coeff_sum, coeff_sum, coeff_sum] at ht ⊢
    simp only [List.map_cons, List.sum_cons, List.filter_cons]
    match i, j with
    | 0, 0 => simp [ht]; ring
    | 1, 0 => simp [ht]; ring
    | 0, 1 => simp [ht]; ring
    | 0, (j + 2) =>
      have hc : c = 0 := by
        by_contra hc
        have h2 : 0 + (j + 2) ≤ 1 := h _ (List.mem_cons_self _ _) hc
        omega
      subst hc
      simp [ht]
    | 1, (j + 1) =>
      have hc : c = 0 := by
        by_contra hc
        have h2 : 1 + (j + 1) ≤ 1 := h _ (List.mem_cons_self _ _) hc
        omega
      subst hc
      simp [ht]
    | (i + 2), j =>
      have hc : c = 0 := by
        by_contra hc
        have h2 : i + 2 + j ≤ 1 := h _ (List.mem_cons_self _ _) hc
        omega
      subst hc
      simp [ht]

/-- C3, counterexample.  The claim asserts that the degenerate linear
branch is taken for every `f` of degree 1 *in `y`*; but the source tests
`f.degree() == 1`, the *total* degree.  For `f = x² + y` (degree 1 in `y`,
total degree 2) the general `sirocco` branch is taken and no two-point
polyline is returned. -/
theorem followstrand_linear_branch_cex :
    BPoly.degY [(2, 0, (⟨1, 0⟩ : QC)), (0, 1, ⟨1, 0⟩)] = 1 ∧
    followstrand [(2, 0, (⟨1, 0⟩ : QC)), (0, 1, ⟨1, 0⟩)] [] ⟨0, 0⟩ ⟨1, 0⟩ ⟨0, 0⟩ 53 =
      some .sirocco ∧
    ∀ pts, (FollowResult.sirocco : FollowResult) ≠ .polyline pts :=
  ⟨by decide, by decide, fun pts h => nomatch h⟩

/-- C3, amended.  `followstrand` takes the degenerate linear branch exactly
when the *total* degree of `f` is 1 (for `deg_y(f) = 1` with total degree
greater than 1 the general certified-continuation branch is taken); in the
degenerate case, provided `y` occurs in `f`, it solves the two endpoint
fibers linearly and returns exactly the two-point polyline
`[(0, Re y0, Im y0), (1, Re y1, Im y1)]` where `y0`, `y1` are the unique
fiber roots at `x0`, `x1`. -/
theorem followstrand_linear_branch_amended :
    ∀ (f : BPoly) (factors : List BPoly) (x0 x1 y0a : QC) (prec : ℕ),
      f.totalDegree = 1 → f.coeff 0 1 ≠ 0 →
      ∃ y0 y1, linearRoot f x0 = some y0 ∧ linearRoot f x1 = some y1 ∧
        followstrand f factors x0 x1 y0a prec =
          some (.polyline [(0, y0.re, y0.im), (1, y1.re, y1.im)]) ∧
        f.eval x0 y0 = 0 ∧ f.eval x1 y1 = 0 := by
  intro f factors x0 x1 y0a prec hdeg hb
  have hsupp := support_of_totalDegree_le (f := f) (le_of_eq hdeg)
  have hb0 : ∀ z : QC, f.specCoeff z 1 ≠ 0 := by
    intro z
    rw [specCoeff_one_eq z hsupp]
    exact hb
  have hroot : ∀ z : QC, linearRoot f z =
      some (-(f.specCoeff z 0) * QC.inv (f.specCoeff z 1)) := by
    intro z
    unfold linearRoot
    rw [if_neg (by simpa using hb0 z)]
  have heval : ∀ z : QC,
      f.eval z (-(f.specCoeff z 0) * QC.inv (f.specCoeff z 1)) = 0 := by
    intro z
    rw [eval_linear _ _ hsupp, specCoeff_one_eq z hsupp]
    have hinv : f.coeff 0 1 * QC.inv (f.coeff 0 1) = 1 := qc_mul_inv hb
    have hspec := specCoeff_zero_eq (f := f) z hsupp
    linear_combination (- f.specCoeff z 0) * hinv - hspec
  refine ⟨_, _, hroot x0, hroot x1, ?_, heval x0, heval x1⟩
  unfold followstrand
  rw [if_pos hdeg, hroot x0, hroot x1]

/-- C3, witness: `f = x + y - 1` (total degree one) at `x0 = 0`, `x1 = 1`. -/
theorem followstrand_linear_branch_amended_witness :
    ∃ y0 y1,
      linearRoot [(1, 0, (⟨1, 0⟩ : QC)), (0, 1, ⟨1, 0⟩), (0, 0, ⟨-1, 0⟩)] ⟨0, 0⟩ = some y0 ∧
      linearRoot [(1, 0, (⟨1, 0⟩ : QC)), (0, 1, ⟨1, 0⟩), (0, 0, ⟨-1, 0⟩)] ⟨1, 0⟩ = some y1 ∧
      followstrand [(1, 0, (⟨1, 0⟩ : QC)), (0, 1, ⟨1, 0⟩), (0, 0, ⟨-1, 0⟩)] [] ⟨0, 0⟩ ⟨1, 0⟩ ⟨0, 0⟩ 53 =
        some (.polyline [(0, y0.re, y0.im), (1, y1.re, y1.im)]) ∧
      BPoly.eval [(1, 0, (⟨1, 0⟩ : QC)), (0, 1, ⟨1, 0⟩), (0, 0, ⟨-1, 0⟩)] ⟨0, 0⟩ y0 = 0 ∧
      BPoly.eval [(1, 0, (⟨1, 0⟩ : QC)), (0, 1, ⟨1, 0⟩), (0, 0, ⟨-1, 0⟩)] ⟨1, 0⟩ y1 = 0 :=
  followstrand_linear_branch_amended
    [(1, 0, (⟨1, 0⟩ : QC)), (0, 1, ⟨1, 0⟩), (0, 0, ⟨-1, 0⟩)] [] ⟨0, 0⟩ ⟨1, 0⟩ ⟨0, 0⟩ 53
    (by decide)
    (by rw [coeff_sum]; simp [List.filter_cons]; intro h; exact absurd (congrArg QC.re h) (by norm_num))

/-! ## Claim C10: the braid produced by `braid_from_piecewise` -/

theorem flatMap_nil_of_forall {f : ℕ → List ℤ} :
    ∀ l : List ℕ, (∀ i ∈ l, f i = []) → l.flatMap f = [] := by
  intro l
  induction l with
  | nil => intro _; rfl
  | cons a t ih =>
    intro h
    simp only [List.flatMap_cons, h a (List.mem_cons_self a t),
      ih (fun i hi => h i (List.mem_cons_of_mem a hi)), List.nil_append]

/-- C10.  Whenever `braid_from_piecewise` returns, the result is an element
of the braid group on exactly `len(strands)` strands (modelled per spec §3
as a word of signed generators on that number of strands), whatever the
trajectories contain; and when no crossings occur in any merged time
interval, the emitted word is empty — the identity braid of that group. -/
theorem braid_from_piecewise_strands :
    ∀ (fuel : ℕ) (strands : List Strand) (b : Braid),
      braid_from_piecewise fuel strands = some b →
      b.strands = strands.length ∧
      ∀ tp, mergedTable fuel strands = some tp →
        (∀ i < (tp.headD []).length - 1, crossingsAt tp i = []) →
        b.word = [] := by
  intro fuel strands b h
  unfold braid_from_piecewise at h
  match hm : mergedTable fuel strands with
  | none => rw [hm] at h; exact absurd h (by simp)
  | some tp0 =>
    rw [hm] at h
    dsimp only at h
    injection h with hb
    subst hb
    refine ⟨rfl, ?_⟩
    intro tp htp hcr
    injection htp with htp
    subst htp
    show (List.range ((tp0.headD []).length - 1)).flatMap (stepWord tp0) = []
    refine flatMap_nil_of_forall _ (fun i hi => ?_)
    have hlt := List.mem_range.mp hi
    simp [stepWord, hcr i hlt]

/-- C10, witness: two parallel constant strands — the loop exits at once,
there are no crossings, and the identity braid on 2 strands is returned. -/
theorem braid_from_piecewise_strands_witness :
    braid_from_piecewise 1 [[(0, 0, 0), (1, 0, 0)], [(0, 1, 0), (1, 1, 0)]] =
      some ⟨2, []⟩ ∧
    (⟨2, []⟩ : Braid).strands =
      [[((0 : ℚ), (0 : ℚ), (0 : ℚ)), (1, 0, 0)], [(0, 1, 0), (1, 1, 0)]].length ∧
    (⟨2, []⟩ : Braid).word = [] := by
  have h := braid_from_piecewise_strands 1
    [[(0, 0, 0), (1, 0, 0)], [(0, 1, 0), (1, 1, 0)]] ⟨2, []⟩ (by decide)
  exact ⟨by decide, h.1, h.2 [[(0, 0), (0, 0)], [(1, 0), (1, 0)]] (by decide) (by decide)⟩

/-! ## Claim C1: disjointness of isolating intervals -/

theorem anyOverlap_false_pairwise :
    ∀ l : List CBox, anyOverlap l = false →
      l.Pairwise (fun a b => a.overlaps b = false) := by
  intro l
  induction l with
  | nil => intro _; exact List.Pairwise.nil
  | cons b t ih =>
    intro h
    rw [anyOverlap, Bool.or_eq_false_iff] at h
    exact List.Pairwise.cons
      (fun b2 hb2 => by
        have := List.any_eq_false.mp h.1 b2 hb2
        simpa using this)
      (ih h.2)

theorem braidInSegmentIsolate_exit :
    ∀ (y0sf : List QC) (fuel prec prec' : ℕ) (ivals : List CBox),
      braidInSegmentIsolate y0sf fuel prec = some (prec', ivals) →
      ivals = y0sf.map (intervalAt prec') ∧ anyOverlap ivals = false := by
  intro y0sf fuel
  induction fuel with
  | zero => intro prec prec' ivals h; exact absurd h (by simp [braidInSegmentIsolate])
  | succ k ih =>
    intro prec prec' ivals h
    rw [braidInSegmentIsolate] at h
    by_cases hov : anyOverlap (y0sf.map (intervalAt prec))
    · rw [if_pos hov] at h
      exact ih (braidPrecStep prec) prec' ivals h
    · rw [if_neg hov] at h
      injection h with h
      injection h with h1 h2
      subst h1; subst h2
      exact ⟨rfl, by simpa using hov⟩

theorem isolateLoop_divisor (fx : Poly) (r : QC) (dmin : ℚ) :
    ∀ (fuel prec : ℕ) (d : ℚ) (p' : ℕ) (d' : ℚ),
      isolateLoop fx r dmin fuel prec d = some (p', d') →
      ∃ k : ℕ, d' = d * 2 ^ k := by
  intro fuel
  induction fuel with
  | zero => intro prec d p' d' h; exact absurd h (by simp [isolateLoop])
  | succ n ih =>
    intro prec d p' d' h
    rw [isolateLoop] at h
    split at h
    · injection h with h
      injection h with h1 h2
      exact ⟨0, by rw [← h2]; ring⟩
    · obtain ⟨k, hk⟩ := ih _ _ _ _ h
      exact ⟨k + 1, by rw [hk, rootsIntervalDivisorStep]; ring⟩

theorem foldl_min_le :
    ∀ (l : List ℚ) (a : ℚ), l.foldl min a ≤ a ∧ ∀ x ∈ l, l.foldl min a ≤ x := by
  intro l
  induction l with
  | nil => simp
  | cons m t ih =>
    intro a
    simp only [List.foldl_cons]
    constructor
    · exact le_trans (ih (min a m)).1 (min_le_left a m)
    · intro x hx
      rcases List.mem_cons.mp hx with rfl | hmem
      · exact le_trans (ih (min a x)).1 (min_le_right a x)
      · exact (ih (min a m)).2 x hmem

theorem foldl_min_nonneg :
    ∀ (l : List ℚ) (a : ℚ), 0 ≤ a → (∀ x ∈ l, 0 ≤ x) → 0 ≤ l.foldl min a := by
  intro l
  induction l with
  | nil => intro a h _; simpa using h
  | cons m t ih =>
    intro a ha h
    simp only [List.foldl_cons]
    exact ih (min a m) (le_min ha (h m (List.mem_cons_self m t)))
      (fun x hx => h x (List.mem_cons_of_mem m hx))

theorem minDist_spec (absF : QC → ℚ) (habs0 : ∀ z, 0 ≤ absF z)
    (r : QC) (others : List QC) (dmin : ℚ)
    (h : minDist absF r others = some dmin) :
    0 ≤ dmin ∧ ∀ r' ∈ others, dmin ≤ absF (r + -r') := by
  match others, h with
  | o :: rest, h =>
    rw [minDist] at h
    injection h with h
    subst h
    constructor
    · exact foldl_min_nonneg _ _ (habs0 _) (by
        intro x hx
        obtain ⟨r0, _, rfl⟩ := List.mem_map.mp hx
        exact habs0 _)
    · intro r' hr'
      rcases List.mem_cons.mp hr' with rfl | hmem
      · exact (foldl_min_le _ _).1
      · exact (foldl_min_le _ _).2 _ (List.mem_map_of_mem _ hmem)

theorem point_add_envelop (r : QC) (d : ℚ) (hd : 0 ≤ d) :
    (CBox.point r).add (envelop d) =
      ⟨⟨r.re + -d, r.re + d⟩, ⟨r.im + -d, r.im + d⟩⟩ := by
  have h1 : d * -1 ≤ d * 1 := by nlinarith
  have h2 : min (d * -1) (d * 1) = -d := by rw [min_eq_left h1]; ring
  have h3 : max (d * -1) (d * 1) = d := by rw [max_eq_right h1]; ring
  simp only [envelop, CBox.point, QI.point, CBox.mul, CBox.add, QI.mul, QI.add,
    QI.sub, QI.neg, h2, h3]
  norm_num

theorem squares_disjoint (absF : QC → ℚ)
    (habs : ∀ z : QC, (absF z) ^ 2 ≤ 3 / 2 * (z.re ^ 2 + z.im ^ 2))
    (r s : QC) (dr ds : ℚ) (hdr : 0 ≤ dr) (hds : 0 ≤ ds) (hrs : r ≠ s)
    (h1 : 4 * dr ≤ absF (r + -s)) (h2 : 4 * ds ≤ absF (s + -r)) :
    CBox.overlaps ⟨⟨r.re + -dr, r.re + dr⟩, ⟨r.im + -dr, r.im + dr⟩⟩
      ⟨⟨s.re + -ds, s.re + ds⟩, ⟨s.im + -ds, s.im + ds⟩⟩ = false := by
  by_contra hov
  rw [Bool.not_eq_false, CBox.overlaps, Bool.and_eq_true, QI.overlaps, QI.overlaps,
    decide_eq_true_eq, decide_eq_true_eq] at hov
  obtain ⟨⟨hre1, hre2⟩, him1, him2⟩ := hov
  dsimp only at hre1 hre2 him1 him2
  have hS : 0 < (r.re - s.re) ^ 2 + (r.im - s.im) ^ 2 := by
    have hne : r.re - s.re ≠ 0 ∨ r.im - s.im ≠ 0 := by
      by_contra hboth
      push_neg at hboth
      exact hrs (QC.ext' (by linarith [hboth.1]) (by linarith [hboth.2]))
    rcases hne with ha | hb
    · nlinarith [sq_nonneg (r.im - s.im), pow_two_pos_of_ne_zero ha]
    · nlinarith [sq_nonneg (r.re - s.re), pow_two_pos_of_ne_zero hb]
  have hb1 : (4 * dr) ^ 2 ≤ (absF (r + -s)) ^ 2 :=
    pow_le_pow_left (by linarith) h1 2
  have hb2 : (4 * ds) ^ 2 ≤ (absF (s + -r)) ^ 2 :=
    pow_le_pow_left (by linarith) h2 2
  have ha1 := habs (r + -s)
  have ha2 := habs (s + -r)
  simp only [QC.add_re, QC.add_im, QC.neg_re, QC.neg_im] at ha1 ha2
  nlinarith [sq_nonneg (dr - ds), sq_nonneg (dr + ds),
    sq_nonneg (r.re - s.re), sq_nonneg (r.im - s.im)]

theorem rootsIntervalGo_spec (absF : QC → ℚ) (fx : Poly) (fuel : ℕ)
    (habs0 : ∀ z, 0 ≤ absF z)
    (habs : ∀ z : QC, (absF z) ^ 2 ≤ 3 / 2 * (z.re ^ 2 + z.im ^ 2)) :
    ∀ (rest prev : List QC) (m : List (QC × CBox)),
      (prev.reverse ++ rest).Pairwise (· ≠ ·) →
      rootsIntervalGo absF fx fuel prev rest = .ok m →
      m.Pairwise (fun a b => a.2.overlaps b.2 = false) ∧
      ∀ x ∈ m, x.1 ∈ rest ∧ ∃ d : ℚ, 0 ≤ d ∧
        x.2 = ⟨⟨x.1.re + -d, x.1.re + d⟩, ⟨x.1.im + -d, x.1.im + d⟩⟩ ∧
        ∀ r' ∈ prev.reverse ++ rest, r' ≠ x.1 → 4 * d ≤ absF (x.1 + -r') := by
  intro rest
  induction rest with
  | nil =>
    intro prev m hpw h
    rw [rootsIntervalGo] at h
    injection h with h
    subst h
    exact ⟨List.Pairwise.nil, by simp⟩
  | cons r rtl ih =>
    intro prev m hpw h
    rw [rootsIntervalGo] at h
    match hmin : minDist absF r (prev.reverse ++ rtl) with
    | none => rw [hmin] at h; exact absurd h (by simp)
    | some dmin =>
      rw [hmin] at h
      dsimp only at h
      match hiso : isolateLoop fx r dmin fuel 53 4 with
      | none => rw [hiso] at h; exact absurd h (by simp)
      | some (p', d') =>
        rw [hiso] at h
        dsimp only at h
        by_cases hc : ((CBox.point r).add (envelop (dmin / d'))).containsPt r = true
        · rw [if_pos hc] at h
          match hrec : rootsIntervalGo absF fx fuel (r :: prev) rtl with
          | .error e => rw [hrec] at h; exact absurd h (by simp)
          | .ok msub =>
            rw [hrec] at h
            injection h with h
            subst h
            obtain ⟨k, hk⟩ := isolateLoop_divisor fx r dmin fuel 53 4 p' d' hiso
            have h2k : (1 : ℚ) ≤ 2 ^ k := one_le_pow₀ (by norm_num)
            have hd'4 : (4 : ℚ) ≤ d' := by rw [hk]; nlinarith
            have hd'pos : (0 : ℚ) < d' := lt_of_lt_of_le (by norm_num) hd'4
            have hmins := minDist_spec absF habs0 r _ dmin hmin
            have hdiam0 : 0 ≤ dmin / d' := div_nonneg hmins.1 (le_of_lt hd'pos)
            have hbox := point_add_envelop r (dmin / d') hdiam0
            have hhead : ∀ r' ∈ prev.reverse ++ r :: rtl, r' ≠ r →
                4 * (dmin / d') ≤ absF (r + -r') := by
              intro r' hr' hner
              have hr'mem : r' ∈ prev.reverse ++ rtl := by
                rcases List.mem_append.mp hr' with hl | hl
                · exact List.mem_append.mpr (Or.inl hl)
                · rcases List.mem_cons.mp hl with rfl | hl
                  · exact absurd rfl hner
                  · exact List.mem_append.mpr (Or.inr hl)
              have hle := hmins.2 r' hr'mem
              have hq : 4 * (dmin / d') ≤ dmin := by
                rw [mul_div_assoc', div_le_iff hd'pos]
                nlinarith [hmins.1]
              linarith
            have hlist : (r :: prev).reverse ++ rtl = prev.reverse ++ r :: rtl := by
              rw [List.reverse_cons, List.append_assoc, List.singleton_append]
            have hpw' : ((r :: prev).reverse ++ rtl).Pairwise (· ≠ ·) := by
              rw [hlist]; exact hpw
            obtain ⟨ihpw, ihfact⟩ := ih (r :: prev) msub hpw' hrec
            have hpw2 : (r :: rtl).Pairwise (· ≠ ·) :=
              hpw.sublist (List.sublist_append_right _ _)
            have hrne : ∀ y ∈ rtl, r ≠ y := fun y hy =>
              List.rel_of_pairwise_cons hpw2 hy
            constructor
            · refine List.Pairwise.cons ?_ ihpw
              intro y hy
              obtain ⟨hyrest, dy, hdy0, hyshape, hybound⟩ := ihfact y hy
              have hyne : r ≠ y.1 := hrne y.1 hyrest
              show ((CBox.point r).add (envelop (dmin / d'))).overlaps y.2 = false
              rw [hbox, hyshape]
              refine squares_disjoint absF habs r y.1 (dmin / d') dy hdiam0 hdy0 hyne ?_ ?_
              · exact hhead y.1
                  (List.mem_append.mpr (Or.inr (List.mem_cons_of_mem _ hyrest)))
                  (Ne.symm hyne)
              · refine hybound r ?_ hyne
                rw [List.reverse_cons]
                exact List.mem_append.mpr
                  (Or.inl (List.mem_append.mpr (Or.inr (List.mem_singleton.mpr rfl))))
            · intro x hx
              rcases List.mem_cons.mp hx with rfl | hxm
              · exact ⟨List.mem_cons_self _ _, dmin / d', hdiam0, hbox, hhead⟩
              · obtain ⟨hxr, dx, h0, hsh, hbd⟩ := ihfact x hxm
                refine ⟨List.mem_cons_of_mem _ hxr, dx, h0, hsh, ?_⟩
                intro r' hr' hne
                refine hbd r' ?_ hne
                rw [hlist]
                exact hr'
        · rw [if_neg hc] at h
          exact absurd h (by simp)

theorem mk_mul (a b c d : ℚ) : (⟨a, b⟩ : QC) * ⟨c, d⟩ = ⟨a * c - b * d, a * d + b * c⟩ := rfl

theorem mk_add (a b c d : ℚ) : (⟨a, b⟩ : QC) + ⟨c, d⟩ = ⟨a + c, b + d⟩ := rfl

theorem mk_neg (a b : ℚ) : (-(⟨a, b⟩ : QC)) = ⟨-a, -b⟩ := rfl

theorem zero_mk : (0 : QC) = ⟨0, 0⟩ := rfl

/-- C1, counterexample.  The claim asserts that when the interval loop of
`braid_in_segment` exits, the isolating intervals are pairwise disjoint
across all roots of the full curve.  The loop only compares intervals
*within* each irreducible factor: for the factors `y - 1` and
`y - (1 + 2⁻⁶⁰)` each fiber root list is a singleton, so both loops exit
immediately at 53 bits, yet the two intervals of these distinct roots
overlap. -/
theorem braid_in_segment_interval_overlap_cex :
    braidInSegmentIsolate [⟨1, 0⟩] 1 53 = some (53, [⟨⟨1, 1⟩, ⟨0, 0⟩⟩]) ∧
    braidInSegmentIsolate [⟨1 + 1 / 2 ^ 60, 0⟩] 1 53 =
      some (53, [⟨⟨1, 1 + 1 / 2 ^ 53⟩, ⟨0, 0⟩⟩]) ∧
    (⟨1, 0⟩ : QC) ≠ ⟨1 + 1 / 2 ^ 60, 0⟩ ∧
    CBox.overlaps ⟨⟨1, 1⟩, ⟨0, 0⟩⟩ ⟨⟨1, 1 + 1 / 2 ^ 53⟩, ⟨0, 0⟩⟩ = true := by
  refine ⟨?_, ?_, ?_, ?_⟩
  · norm_num [braidInSegmentIsolate, intervalAt, anyOverlap]
  · have hceil : ⌈(1152921504606846977 : ℚ) / 128⌉ = (9007199254740993 : ℤ) := by
      rw [Int.ceil_eq_iff] <;> norm_num
    norm_num [braidInSegmentIsolate, intervalAt, anyOverlap, hceil]
  · intro h
    exact absurd (congrArg QC.re h) (by norm_num)
  · norm_num [CBox.overlaps, QI.overlaps]

/-- C1, amended.  The interval map returned by `roots_interval` is pairwise
disjoint: intervals of distinct fiber roots cannot even touch.  In
`braid_in_segment`, when the precision-escalation loop exits, the isolating
intervals are pairwise non-overlapping *within each irreducible factor*
(disjointness across different factors of the curve is not checked by that
loop). -/
theorem isolating_intervals_disjoint_amended :
    (∀ (absF : QC → ℚ) (fx : Poly) (roots : List QC) (fuel : ℕ)
      (m : List (QC × CBox)),
      (∀ z, 0 ≤ absF z) →
      (∀ z : QC, (absF z) ^ 2 ≤ 3 / 2 * (z.re ^ 2 + z.im ^ 2)) →
      roots.Pairwise (· ≠ ·) →
      roots_interval absF fx roots fuel = .ok m →
      m.Pairwise (fun a b => a.2.overlaps b.2 = false)) ∧
    (∀ (y0sf : List QC) (fuel prec prec' : ℕ) (ivals : List CBox),
      braidInSegmentIsolate y0sf fuel prec = some (prec', ivals) →
      ivals.Pairwise (fun a b => a.overlaps b = false)) := by
  constructor
  · intro absF fx roots fuel m h0 h2 hpw h
    exact (rootsIntervalGo_spec absF fx fuel h0 h2 roots [] m (by simpa using hpw) h).1
  · intro y0sf fuel prec prec' ivals h
    exact anyOverlap_false_pairwise ivals
      (braidInSegmentIsolate_exit y0sf fuel prec prec' ivals h).2

theorem isolateLoop_succ (fx : Poly) (r : QC) (dmin : ℚ) (fuel prec : ℕ)
    (divisor : ℚ) :
    isolateLoop fx r dmin (fuel + 1) prec divisor =
      if (match newton fx r ((CBox.point r).add (envelop (dmin / divisor))) with
          | some img => img.subset ((CBox.point r).add (envelop (dmin / divisor)))
          | none => false) = true
      then some (prec, divisor)
      else isolateLoop fx r dmin fuel (rootsIntervalPrecStep prec)
        (rootsIntervalDivisorStep divisor) := rfl

theorem rootsIntervalGo_cons (absF : QC → ℚ) (fx : Poly) (fuel : ℕ)
    (prev : List QC) (r : QC) (rest : List QC) :
    rootsIntervalGo absF fx fuel prev (r :: rest) =
      match minDist absF r (prev.reverse ++ rest) with
      | none => .error "min() arg is an empty sequence"
      | some dmin =>
        match isolateLoop fx r dmin fuel 53 4 with
        | none => .error "precision escalation did not terminate"
        | some (_, divisor) =>
          if ((CBox.point r).add (envelop (dmin / divisor))).containsPt r then
            match rootsIntervalGo absF fx fuel (r :: prev) rest with
            | .ok res => .ok ((r, (CBox.point r).add (envelop (dmin / divisor))) :: res)
            | .error e => .error e
          else .error "Could not approximate roots with exact values" := rfl

theorem rootsIntervalGo_nil (absF : QC → ℚ) (fx : Poly) (fuel : ℕ)
    (prev : List QC) :
    rootsIntervalGo absF fx fuel prev [] = .ok [] := rfl

set_option maxHeartbeats 3200000 in
/-- Concrete evaluation of `roots_interval` on the fiber roots `0`, `1` of
`y³ - y` with the max-norm floating model of `abs`: the root `0` certifies
at the first attempt, the root `1` needs one precision escalation. -/
theorem roots_interval_run_eval :
    roots_interval (fun z : QC => max |z.re| |z.im|)
      [⟨0, 0⟩, ⟨-1, 0⟩, ⟨0, 0⟩, ⟨1, 0⟩] [⟨0, 0⟩, ⟨1, 0⟩] 2 =
      .ok [(⟨0, 0⟩, ⟨⟨-1/4, 1/4⟩, ⟨-1/4, 1/4⟩⟩),
           (⟨1, 0⟩, ⟨⟨7/8, 9/8⟩, ⟨-1/8, 1/8⟩⟩)] := by
  have hd : Poly.deriv [(⟨0, 0⟩ : QC), ⟨-1, 0⟩, ⟨0, 0⟩, ⟨1, 0⟩] =
      [⟨-1, 0⟩, ⟨0, 0⟩, ⟨3, 0⟩] := by
    norm_num [Poly.deriv, Poly.derivAux, mk_mul]
  have he0 : Poly.evalE [(⟨0, 0⟩ : QC), ⟨-1, 0⟩, ⟨0, 0⟩, ⟨1, 0⟩] ⟨0, 0⟩ = ⟨0, 0⟩ := by
    norm_num [Poly.evalE, mk_mul, mk_add, zero_mk]
  have he1 : Poly.evalE [(⟨0, 0⟩ : QC), ⟨-1, 0⟩, ⟨0, 0⟩, ⟨1, 0⟩] ⟨1, 0⟩ = ⟨0, 0⟩ := by
    norm_num [Poly.evalE, mk_mul, mk_add, zero_mk]
  have hb0 : (CBox.point (⟨0, 0⟩ : QC)).add (envelop (1 / 4)) =
      ⟨⟨-1/4, 1/4⟩, ⟨-1/4, 1/4⟩⟩ := by
    norm_num [CBox.point, CBox.add, CBox.mul, envelop, QI.point, QI.mul, QI.add,
      QI.sub, QI.neg, min_def, max_def]
  have hb1a : (CBox.point (⟨1, 0⟩ : QC)).add (envelop (1 / 4)) =
      ⟨⟨3/4, 5/4⟩, ⟨-1/4, 1/4⟩⟩ := by
    norm_num [CBox.point, CBox.add, CBox.mul, envelop, QI.point, QI.mul, QI.add,
      QI.sub, QI.neg, min_def, max_def]
  have hb1b : (CBox.point (⟨1, 0⟩ : QC)).add (envelop (1 / 8)) =
      ⟨⟨7/8, 9/8⟩, ⟨-1/8, 1/8⟩⟩ := by
    norm_num [CBox.point, CBox.add, CBox.mul, envelop, QI.point, QI.mul, QI.add,
      QI.sub, QI.neg, min_def, max_def]
  have hD0 : Poly.evalI [(⟨-1, 0⟩ : QC), ⟨0, 0⟩, ⟨3, 0⟩] ⟨⟨-1/4, 1/4⟩, ⟨-1/4, 1/4⟩⟩ =
      ⟨⟨-11/8, -5/8⟩, ⟨-3/8, 3/8⟩⟩ := by
    norm_num [Poly.evalI, CBox.mul, CBox.add, CBox.sub, CBox.point, QI.point,
      QI.mul, QI.add, QI.sub, QI.neg, min_def, max_def]
  have hD1a : Poly.evalI [(⟨-1, 0⟩ : QC), ⟨0, 0⟩, ⟨3, 0⟩] ⟨⟨3/4, 5/4⟩, ⟨-1/4, 1/4⟩⟩ =
      ⟨⟨1/2, 31/8⟩, ⟨-15/8, 15/8⟩⟩ := by
    norm_num [Poly.evalI, CBox.mul, CBox.add, CBox.sub, CBox.point, QI.point,
      QI.mul, QI.add, QI.sub, QI.neg, min_def, max_def]
  have hD1b : Poly.evalI [(⟨-1, 0⟩ : QC), ⟨0, 0⟩, ⟨3, 0⟩] ⟨⟨7/8, 9/8⟩, ⟨-1/8, 1/8⟩⟩ =
      ⟨⟨5/4, 91/32⟩, ⟨-27/32, 27/32⟩⟩ := by
    norm_num [Poly.evalI, CBox.mul, CBox.add, CBox.sub, CBox.point, QI.point,
      QI.mul, QI.add, QI.sub, QI.neg, min_def, max_def]
  have hN0 : CBox.normI ⟨⟨-11/8, -5/8⟩, ⟨-3/8, 3/8⟩⟩ = ⟨1/4, 65/32⟩ := by
    norm_num [CBox.normI, QI.mul, QI.add, min_def, max_def]
  have hN1a : CBox.normI ⟨⟨1/2, 31/8⟩, ⟨-15/8, 15/8⟩⟩ = ⟨-209/64, 593/32⟩ := by
    norm_num [CBox.normI, QI.mul, QI.add, min_def, max_def]
  have hN1b : CBox.normI ⟨⟨5/4, 91/32⟩, ⟨-27/32, 27/32⟩⟩ = ⟨871/1024, 4505/512⟩ := by
    norm_num [CBox.normI, QI.mul, QI.add, min_def, max_def]
  have hI0 : QI.inv ⟨1/4, 65/32⟩ = some ⟨32/65, 4⟩ := by norm_num [QI.inv]
  have hI1a : QI.inv ⟨-209/64, 593/32⟩ = none := by norm_num [QI.inv]
  have hI1b : QI.inv ⟨871/1024, 4505/512⟩ = some ⟨512/4505, 1024/871⟩ := by
    norm_num [QI.inv]
  have hdiv0 : CBox.div (CBox.point (⟨0, 0⟩ : QC)) ⟨⟨-11/8, -5/8⟩, ⟨-3/8, 3/8⟩⟩ =
      some ⟨⟨0, 0⟩, ⟨0, 0⟩⟩ := by
    unfold CBox.div
    rw [hN0, hI0]
    norm_num [CBox.scale, CBox.mul, CBox.conj, CBox.point, QI.point, QI.mul,
      QI.add, QI.sub, QI.neg, min_def, max_def]
  have hdiv1a : CBox.div (CBox.point (⟨0, 0⟩ : QC)) ⟨⟨1/2, 31/8⟩, ⟨-15/8, 15/8⟩⟩ =
      none := by
    unfold CBox.div
    rw [hN1a, hI1a]
  have hdiv1b : CBox.div (CBox.point (⟨0, 0⟩ : QC)) ⟨⟨5/4, 91/32⟩, ⟨-27/32, 27/32⟩⟩ =
      some ⟨⟨0, 0⟩, ⟨0, 0⟩⟩ := by
    unfold CBox.div
    rw [hN1b, hI1b]
    norm_num [CBox.scale, CBox.mul, CBox.conj, CBox.point, QI.point, QI.mul,
      QI.add, QI.sub, QI.neg, min_def, max_def]
  have hnew0 : newton [(⟨0, 0⟩ : QC), ⟨-1, 0⟩, ⟨0, 0⟩, ⟨1, 0⟩] ⟨0, 0⟩
      ⟨⟨-1/4, 1/4⟩, ⟨-1/4, 1/4⟩⟩ = some ⟨⟨0, 0⟩, ⟨0, 0⟩⟩ := by
    unfold newton
    rw [he0, hd, hD0, hdiv0]
    norm_num [CBox.sub, CBox.point, QI.point, QI.sub, QI.add, QI.neg]
  have hnew1a : newton [(⟨0, 0⟩ : QC), ⟨-1, 0⟩, ⟨0, 0⟩, ⟨1, 0⟩] ⟨1, 0⟩
      ⟨⟨3/4, 5/4⟩, ⟨-1/4, 1/4⟩⟩ = none := by
    unfold newton
    rw [he1, hd, hD1a, hdiv1a]
  have hnew1b : newton [(⟨0, 0⟩ : QC), ⟨-1, 0⟩, ⟨0, 0⟩, ⟨1, 0⟩] ⟨1, 0⟩
      ⟨⟨7/8, 9/8⟩, ⟨-1/8, 1/8⟩⟩ = some ⟨⟨1, 1⟩, ⟨0, 0⟩⟩ := by
    unfold newton
    rw [he1, hd, hD1b, hdiv1b]
    norm_num [CBox.sub, CBox.point, QI.point, QI.sub, QI.add, QI.neg]
  have hsub0 : CBox.subset ⟨⟨0, 0⟩, ⟨0, 0⟩⟩ ⟨⟨-1/4, 1/4⟩, ⟨-1/4, 1/4⟩⟩ = true := by
    norm_num [CBox.subset, QI.subset, Bool.and_eq_true, decide_eq_true_eq]
  have hsub1b : CBox.subset ⟨⟨1, 1⟩, ⟨0, 0⟩⟩ ⟨⟨7/8, 9/8⟩, ⟨-1/8, 1/8⟩⟩ = true := by
    norm_num [CBox.subset, QI.subset, Bool.and_eq_true, decide_eq_true_eq]
  have hloop0 : isolateLoop [(⟨0, 0⟩ : QC), ⟨-1, 0⟩, ⟨0, 0⟩, ⟨1, 0⟩] ⟨0, 0⟩ 1 2 53 4 =
      some (53, 4) := by
    rw [show (2 : ℕ) = 1 + 1 from rfl, isolateLoop_succ, hb0, hnew0]
    simp only [hsub0]
    exact if_pos (by trivial)
  have hloop1 : isolateLoop [(⟨0, 0⟩ : QC), ⟨-1, 0⟩, ⟨0, 0⟩, ⟨1, 0⟩] ⟨1, 0⟩ 1 2 53 4 =
      some (106, 8) := by
    have hps : rootsIntervalPrecStep 53 = 106 := rfl
    have hds : rootsIntervalDivisorStep 4 = 8 := by
      norm_num [rootsIntervalDivisorStep]
    have hstep1 : isolateLoop [(⟨0, 0⟩ : QC), ⟨-1, 0⟩, ⟨0, 0⟩, ⟨1, 0⟩] ⟨1, 0⟩
        1 1 106 8 = some (106, 8) := by
      rw [show (1 : ℕ) = 0 + 1 from rfl, isolateLoop_succ, hb1b, hnew1b]
      simp only [hsub1b]
      exact if_pos (by trivial)
    rw [show (2 : ℕ) = 1 + 1 from rfl, isolateLoop_succ, hb1a, hnew1a]
    simp only [hps, hds, Bool.false_eq_true, if_false]
    exact hstep1
  have hcont0 : CBox.containsPt ⟨⟨-1/4, 1/4⟩, ⟨-1/4, 1/4⟩⟩ ⟨0, 0⟩ = true := by
    norm_num [CBox.containsPt]
  have hcont1 : CBox.containsPt ⟨⟨7/8, 9/8⟩, ⟨-1/8, 1/8⟩⟩ ⟨1, 0⟩ = true := by
    norm_num [CBox.containsPt]
  have hmin0 : minDist (fun z : QC => max |z.re| |z.im|) ⟨0, 0⟩
      (List.reverse [] ++ [⟨1, 0⟩]) = some 1 := by
    norm_num [minDist, mk_add, mk_neg, zero_mk, max_def]
  have hmin1 : minDist (fun z : QC => max |z.re| |z.im|) ⟨1, 0⟩
      (List.reverse [(⟨0, 0⟩ : QC)] ++ []) = some 1 := by
    norm_num [minDist, mk_add, mk_neg, zero_mk, max_def]
  have hgo1 : rootsIntervalGo (fun z : QC => max |z.re| |z.im|)
      [⟨0, 0⟩, ⟨-1, 0⟩, ⟨0, 0⟩, ⟨1, 0⟩] 2 [⟨0, 0⟩] [⟨1, 0⟩] =
      .ok [(⟨1, 0⟩, ⟨⟨7/8, 9/8⟩, ⟨-1/8, 1/8⟩⟩)] := by
    rw [rootsIntervalGo_cons, hmin1]
    simp only [hloop1, hb1b, hcont1, rootsIntervalGo_nil]
    exact if_pos (by trivial)
  have hgo0 : rootsIntervalGo (fun z : QC => max |z.re| |z.im|)
      [⟨0, 0⟩, ⟨-1, 0⟩, ⟨0, 0⟩, ⟨1, 0⟩] 2 [] [⟨0, 0⟩, ⟨1, 0⟩] =
      .ok [(⟨0, 0⟩, ⟨⟨-1/4, 1/4⟩, ⟨-1/4, 1/4⟩⟩),
           (⟨1, 0⟩, ⟨⟨7/8, 9/8⟩, ⟨-1/8, 1/8⟩⟩)] := by
    rw [rootsIntervalGo_cons, hmin0]
    simp only [hloop0, hb0, hcont0, hgo1]
    exact if_pos (by trivial)
  exact hgo0

/-- C1, witness: a concrete certified run of `roots_interval` on the fiber
roots `0`, `1` of `y³ - y` (one precision escalation occurs for the root
`1`), and a concrete exit of the `braid_in_segment` interval loop. -/
theorem isolating_intervals_disjoint_amended_witness :
    ([((⟨0, 0⟩ : QC), (⟨⟨-1/4, 1/4⟩, ⟨-1/4, 1/4⟩⟩ : CBox)),
      (⟨1, 0⟩, ⟨⟨7/8, 9/8⟩, ⟨-1/8, 1/8⟩⟩)].Pairwise
        (fun a b => a.2.overlaps b.2 = false)) ∧
    ([(⟨⟨0, 0⟩, ⟨0, 0⟩⟩ : CBox), ⟨⟨1, 1⟩, ⟨0, 0⟩⟩].Pairwise
        (fun a b => a.overlaps b = false)) := by
  have habs0 : ∀ z : QC, 0 ≤ (fun z : QC => max |z.re| |z.im|) z :=
    fun z => le_trans (abs_nonneg z.re) (le_max_left _ _)
  have habs : ∀ z : QC, ((fun z : QC => max |z.re| |z.im|) z) ^ 2 ≤
      3 / 2 * (z.re ^ 2 + z.im ^ 2) := by
    intro z
    show (max |z.re| |z.im|) ^ 2 ≤ 3 / 2 * (z.re ^ 2 + z.im ^ 2)
    rcases max_cases |z.re| |z.im| with ⟨heq, _⟩ | ⟨heq, _⟩ <;>
      · rw [heq, sq_abs]
        nlinarith [sq_nonneg z.re, sq_nonneg z.im]
  constructor
  · exact isolating_intervals_disjoint_amended.1 (fun z : QC => max |z.re| |z.im|)
      [⟨0, 0⟩, ⟨-1, 0⟩, ⟨0, 0⟩, ⟨1, 0⟩] [⟨0, 0⟩, ⟨1, 0⟩] 2 _ habs0 habs
      (by decide) roots_interval_run_eval
  · refine isolating_intervals_disjoint_amended.2 [⟨0, 0⟩, ⟨1, 0⟩] 1 53 53 _ ?_
    norm_num [braidInSegmentIsolate, intervalAt, anyOverlap, CBox.overlaps,
      QI.overlaps]

/-! ## Claims C6 and C8: circuit orientation

List-rotation helpers relating the ratio list of a reversed circuit to the
ratio list of the original. -/

theorem length_rotL (l : List α) : (rotL l).length = l.length := by
  cases l <;> simp [rotL]

theorem rotR_eq (l : List α) : rotR l = (rotL l.reverse).reverse := by
  unfold rotR
  cases h : l.reverse with
  | nil => simp [rotL]
  | cons x t => simp [rotL]

theorem rotR_reverse (l : List α) : rotR l.reverse = (rotL l).reverse := by
  rw [rotR_eq, List.reverse_reverse]

theorem rotL_reverse (l : List α) : rotL l.reverse = (rotR l).reverse := by
  rw [rotR_eq, List.reverse_reverse]

theorem length_rotR (l : List α) : (rotR l).length = l.length := by
  rw [rotR_eq]
  simp [length_rotL]

theorem rotL_map (f : α → β) (l : List α) :
    rotL (l.map f) = (rotL l).map f := by
  cases l <;> simp [rotL]

theorem sum_rotL (l : List ℝ) : (rotL l).sum = l.sum := by
  cases l with
  | nil => rfl
  | cons a t => simp [rotL, add_comm]

theorem mem_rotL {l : List α} {a : α} : a ∈ rotL l ↔ a ∈ l := by
  cases l <;> simp [rotL, or_comm]

theorem rotR_rotL (l : List α) : rotR (rotL l) = l := by
  cases l with
  | nil => rfl
  | cons a t =>
    unfold rotR
    simp [rotL]

theorem rotL_rotR (l : List α) : rotL (rotR l) = l := by
  rw [rotR_eq, rotL_reverse, rotR_rotL, List.reverse_reverse]

theorem zipWith_rotL (f : α → β → γ) (xs : List α) (ys : List β)
    (h : xs.length = ys.length) :
    List.zipWith f (rotL xs) (rotL ys) = rotL (List.zipWith f xs ys) := by
  cases xs with
  | nil => cases ys <;> simp [rotL]
  | cons a t =>
    cases ys with
    | nil => simp at h
    | cons b s =>
      simp only [rotL, List.zipWith_cons_cons]
      rw [List.zipWith_append _ _ _ _ _ (by simpa using h)]
      simp [rotL]

theorem zipWith_rot (f : α → α → β) (l : List α) :
    List.zipWith f l (rotL l) = rotL (List.zipWith f (rotR l) l) := by
  have h := zipWith_rotL f (rotR l) l (by rw [length_rotR])
  rw [rotL_rotR] at h
  exact h

theorem zipWith_div_neg (l m : List ℂ) :
    List.zipWith (· / ·) (l.map (fun z => -z)) (m.map (fun z => -z)) =
      List.zipWith (· / ·) l m := by
  rw [List.zipWith_map]
  induction l generalizing m with
  | nil => simp
  | cons a t ih =>
    cases m with
    | nil => simp
    | cons b s => simp [neg_div_neg_eq, ih]

/-- Swapping an edge's endpoints negates its vector. -/
theorem vecC_swap (e : QPt × QPt) : vecC (e.2, e.1) = -vecC e := by
  simp only [vecC]
  push_cast
  ring

theorem map_vecC_reverseSwap (c : Circuit) :
    (reverseSwap c).map vecC = ((c.map vecC).map (fun z => -z)).reverse := by
  unfold reverseSwap
  rw [List.map_reverse, List.map_map, List.map_map]
  congr 1
  exact List.map_congr_left (fun e _ => vecC_swap e)

/-- The ratio list of the exact reverse of a circuit is the reversed list of
inverses of the left-rotated ratio list of the original circuit. -/
theorem ratios_reverseSwap (c : Circuit) :
    ratios (reverseSwap c) =
      ((rotL (ratios c)).map (fun z => z⁻¹)).reverse := by
  unfold ratios
  rw [map_vecC_reverseSwap, rotR_reverse]
  rw [← List.zipWith_distrib_reverse (by rw [length_rotL])]
  congr 1
  rw [rotL_map, zipWith_div_neg, zipWith_rot]
  rw [← rotL_map]
  congr 1
  rw [List.map_zipWith]
  simp only [inv_div]
  rw [List.zipWith_comm (· / ·) (rotR (c.map vecC)) (c.map vecC)]

/-- When no turning ratio points along the negative real axis, reversing the
circuit exactly negates the total signed turning angle (`arg z⁻¹ = -arg z`
fails precisely at `arg z = π`, where both arguments are `π`). -/
theorem totalAngle_reverseSwap (c : Circuit)
    (hpi : ∀ r ∈ ratios c, Complex.arg r ≠ Real.pi) :
    totalAngle (reverseSwap c) = -totalAngle c := by
  unfold totalAngle
  rw [ratios_reverseSwap, List.map_reverse, List.sum_reverse, List.map_map]
  have h1 : ((rotL (ratios c)).map (Complex.arg ∘ fun z => z⁻¹)) =
      ((rotL (ratios c)).map Complex.arg).map (fun x => -x) := by
    rw [List.map_map]
    refine List.map_congr_left (fun r hr => ?_)
    simp only [Function.comp_apply]
    rw [Complex.arg_inv, if_neg (hpi r (mem_rotL.mp hr))]
  rw [h1, ← List.sum_neg, neg_inj, ← rotL_map, sum_rotL]

/-- Reversal never decreases the negated total angle: `arg z⁻¹ ≥ -arg z`
for every `z` (with equality unless `arg z = π`), so the total angle of the
exact reverse is at least the negation of the original's. -/
theorem totalAngle_reverseSwap_ge (c : Circuit) :
    -totalAngle c ≤ totalAngle (reverseSwap c) := by
  unfold totalAngle
  rw [ratios_reverseSwap, List.map_reverse, List.sum_reverse, List.map_map]
  have h1 : ((rotL (ratios c)).map (fun x => -Complex.arg x)).sum =
      -((ratios c).map Complex.arg).sum := by
    have h0 : (rotL (ratios c)).map (fun x => -Complex.arg x) =
        ((rotL (ratios c)).map Complex.arg).map (fun x => -x) := by
      rw [List.map_map]
      rfl
    rw [h0, ← List.sum_neg, ← rotL_map, sum_rotL]
  rw [← h1]
  refine List.sum_le_sum (fun r _ => ?_)
  simp only [Function.comp_apply]
  rw [Complex.arg_inv]
  by_cases h : Complex.arg r = Real.pi
  · rw [if_pos h, h]
    linarith [Real.pi_pos]
  · rw [if_neg h]

/-- The exact reverse is an involution. -/
theorem reverseSwap_reverseSwap (c : Circuit) :
    reverseSwap (reverseSwap c) = c := by
  unfold reverseSwap
  rw [List.map_reverse, List.reverse_reverse, List.map_map]
  rw [show ((fun (e : QPt × QPt) => (e.2, e.1)) ∘ fun e => (e.2, e.1)) = id from
    funext fun e => rfl, List.map_id]

/-- The turning ratios of the unit-square circuit are all `I`. -/
theorem ratios_unit_square :
    ratios [(((0 : ℚ), (0 : ℚ)), ((1 : ℚ), (0 : ℚ))), (((1 : ℚ), (0 : ℚ)), ((1 : ℚ), (1 : ℚ))),
        (((1 : ℚ), (1 : ℚ)), ((0 : ℚ), (1 : ℚ))), (((0 : ℚ), (1 : ℚ)), ((0 : ℚ), (0 : ℚ)))] =
      [Complex.I, Complex.I, Complex.I, Complex.I] := by
  have hv : List.map vecC
      [(((0 : ℚ), (0 : ℚ)), ((1 : ℚ), (0 : ℚ))), (((1 : ℚ), (0 : ℚ)), ((1 : ℚ), (1 : ℚ))),
       (((1 : ℚ), (1 : ℚ)), ((0 : ℚ), (1 : ℚ))), (((0 : ℚ), (1 : ℚ)), ((0 : ℚ), (0 : ℚ)))] =
      [1, Complex.I, -1, -Complex.I] := by
    norm_num [vecC]
  unfold ratios
  rw [hv]
  norm_num [rotR, div_neg, neg_div, one_div, Complex.inv_I, div_one, neg_neg]

/-- The total turning angle of the unit-square circuit is `2π`. -/
theorem totalAngle_unit_square :
    totalAngle [(((0 : ℚ), (0 : ℚ)), ((1 : ℚ), (0 : ℚ))), (((1 : ℚ), (0 : ℚ)), ((1 : ℚ), (1 : ℚ))),
        (((1 : ℚ), (1 : ℚ)), ((0 : ℚ), (1 : ℚ))), (((0 : ℚ), (1 : ℚ)), ((0 : ℚ), (0 : ℚ)))] =
      2 * Real.pi := by
  unfold totalAngle
  rw [ratios_unit_square]
  simp only [List.map_cons, List.map_nil, Complex.arg_I, List.sum_cons,
    List.sum_nil]
  ring

/-- C8, counterexample.  The claim asserts that for every circuit with
nonzero total turning angle, `orient_circuit` of the circuit and of its
exact reverse agree.  The out-and-back circuit along two spokes has total
angle `2π`, and so does its exact reverse: both are kept unchanged, yet
they are different circuits.  (The failure comes from ratios with argument
exactly `π`, where reversal does not negate the total angle.) -/
theorem orient_circuit_reverse_cex :
    totalAngle [(((0 : ℚ), (0 : ℚ)), ((1 : ℚ), (0 : ℚ))), (((1 : ℚ), (0 : ℚ)), ((0 : ℚ), (0 : ℚ))),
        (((0 : ℚ), (0 : ℚ)), ((0 : ℚ), (1 : ℚ))), (((0 : ℚ), (1 : ℚ)), ((0 : ℚ), (0 : ℚ)))] ≠ 0 ∧
    orient_circuit [(((0 : ℚ), (0 : ℚ)), ((1 : ℚ), (0 : ℚ))), (((1 : ℚ), (0 : ℚ)), ((0 : ℚ), (0 : ℚ))),
        (((0 : ℚ), (0 : ℚ)), ((0 : ℚ), (1 : ℚ))), (((0 : ℚ), (1 : ℚ)), ((0 : ℚ), (0 : ℚ)))] =
      some [(((0 : ℚ), (0 : ℚ)), ((1 : ℚ), (0 : ℚ))), (((1 : ℚ), (0 : ℚ)), ((0 : ℚ), (0 : ℚ))),
        (((0 : ℚ), (0 : ℚ)), ((0 : ℚ), (1 : ℚ))), (((0 : ℚ), (1 : ℚ)), ((0 : ℚ), (0 : ℚ)))] ∧
    orient_circuit (reverseSwap [(((0 : ℚ), (0 : ℚ)), ((1 : ℚ), (0 : ℚ))), (((1 : ℚ), (0 : ℚ)), ((0 : ℚ), (0 : ℚ))),
        (((0 : ℚ), (0 : ℚ)), ((0 : ℚ), (1 : ℚ))), (((0 : ℚ), (1 : ℚ)), ((0 : ℚ), (0 : ℚ)))]) =
      some (reverseSwap [(((0 : ℚ), (0 : ℚ)), ((1 : ℚ), (0 : ℚ))), (((1 : ℚ), (0 : ℚ)), ((0 : ℚ), (0 : ℚ))),
        (((0 : ℚ), (0 : ℚ)), ((0 : ℚ), (1 : ℚ))), (((0 : ℚ), (1 : ℚ)), ((0 : ℚ), (0 : ℚ)))]) ∧
    reverseSwap [(((0 : ℚ), (0 : ℚ)), ((1 : ℚ), (0 : ℚ))), (((1 : ℚ), (0 : ℚ)), ((0 : ℚ), (0 : ℚ))),
        (((0 : ℚ), (0 : ℚ)), ((0 : ℚ), (1 : ℚ))), (((0 : ℚ), (1 : ℚ)), ((0 : ℚ), (0 : ℚ)))] ≠
      [(((0 : ℚ), (0 : ℚ)), ((1 : ℚ), (0 : ℚ))), (((1 : ℚ), (0 : ℚ)), ((0 : ℚ), (0 : ℚ))),
        (((0 : ℚ), (0 : ℚ)), ((0 : ℚ), (1 : ℚ))), (((0 : ℚ), (1 : ℚ)), ((0 : ℚ), (0 : ℚ)))] := by
  have hrs : reverseSwap [(((0 : ℚ), (0 : ℚ)), ((1 : ℚ), (0 : ℚ))), (((1 : ℚ), (0 : ℚ)), ((0 : ℚ), (0 : ℚ))),
      (((0 : ℚ), (0 : ℚ)), ((0 : ℚ), (1 : ℚ))), (((0 : ℚ), (1 : ℚ)), ((0 : ℚ), (0 : ℚ)))] =
      [(((0 : ℚ), (0 : ℚ)), ((0 : ℚ), (1 : ℚ))), (((0 : ℚ), (1 : ℚ)), ((0 : ℚ), (0 : ℚ))),
       (((0 : ℚ), (0 : ℚ)), ((1 : ℚ), (0 : ℚ))), (((1 : ℚ), (0 : ℚ)), ((0 : ℚ), (0 : ℚ)))] := rfl
  have hv1 : List.map vecC
      [(((0 : ℚ), (0 : ℚ)), ((1 : ℚ), (0 : ℚ))), (((1 : ℚ), (0 : ℚ)), ((0 : ℚ), (0 : ℚ))),
       (((0 : ℚ), (0 : ℚ)), ((0 : ℚ), (1 : ℚ))), (((0 : ℚ), (1 : ℚ)), ((0 : ℚ), (0 : ℚ)))] =
      [1, -1, Complex.I, -Complex.I] := by
    norm_num [vecC]
  have hr1 : ratios [(((0 : ℚ), (0 : ℚ)), ((1 : ℚ), (0 : ℚ))), (((1 : ℚ), (0 : ℚ)), ((0 : ℚ), (0 : ℚ))),
      (((0 : ℚ), (0 : ℚ)), ((0 : ℚ), (1 : ℚ))), (((0 : ℚ), (1 : ℚ)), ((0 : ℚ), (0 : ℚ)))] =
      [Complex.I, -1, -Complex.I, -1] := by
    unfold ratios
    rw [hv1]
    norm_num [rotR, div_neg, neg_div, one_div, Complex.inv_I, div_one, neg_neg,
      div_self Complex.I_ne_zero]
  have ht1 : totalAngle [(((0 : ℚ), (0 : ℚ)), ((1 : ℚ), (0 : ℚ))), (((1 : ℚ), (0 : ℚ)), ((0 : ℚ), (0 : ℚ))),
      (((0 : ℚ), (0 : ℚ)), ((0 : ℚ), (1 : ℚ))), (((0 : ℚ), (1 : ℚ)), ((0 : ℚ), (0 : ℚ)))] =
      2 * Real.pi := by
    unfold totalAngle
    rw [hr1]
    simp only [List.map_cons, List.map_nil, Complex.arg_I, Complex.arg_neg_I,
      Complex.arg_neg_one, List.sum_cons, List.sum_nil]
    ring
  have hv2 : List.map vecC
      [(((0 : ℚ), (0 : ℚ)), ((0 : ℚ), (1 : ℚ))), (((0 : ℚ), (1 : ℚ)), ((0 : ℚ), (0 : ℚ))),
       (((0 : ℚ), (0 : ℚ)), ((1 : ℚ), (0 : ℚ))), (((1 : ℚ), (0 : ℚ)), ((0 : ℚ), (0 : ℚ)))] =
      [Complex.I, -Complex.I, 1, -1] := by
    norm_num [vecC]
  have hr2 : ratios [(((0 : ℚ), (0 : ℚ)), ((0 : ℚ), (1 : ℚ))), (((0 : ℚ), (1 : ℚ)), ((0 : ℚ), (0 : ℚ))),
      (((0 : ℚ), (0 : ℚ)), ((1 : ℚ), (0 : ℚ))), (((1 : ℚ), (0 : ℚ)), ((0 : ℚ), (0 : ℚ)))] =
      [-Complex.I, -1, Complex.I, -1] := by
    unfold ratios
    rw [hv2]
    norm_num [rotR, div_neg, neg_div, one_div, Complex.inv_I, div_one, neg_neg,
      div_self Complex.I_ne_zero]
  have ht2 : totalAngle [(((0 : ℚ), (0 : ℚ)), ((0 : ℚ), (1 : ℚ))), (((0 : ℚ), (1 : ℚ)), ((0 : ℚ), (0 : ℚ))),
      (((0 : ℚ), (0 : ℚ)), ((1 : ℚ), (0 : ℚ))), (((1 : ℚ), (0 : ℚ)), ((0 : ℚ), (0 : ℚ)))] =
      2 * Real.pi := by
    unfold totalAngle
    rw [hr2]
    simp only [List.map_cons, List.map_nil, Complex.arg_I, Complex.arg_neg_I,
      Complex.arg_neg_one, List.sum_cons, List.sum_nil]
    ring
  have hpos : (0 : ℝ) < 2 * Real.pi := by positivity
  refine ⟨by rw [ht1]; exact hpos.ne', ?_, ?_, by decide⟩
  · unfold orient_circuit
    rw [ht1, if_neg (not_lt.mpr hpos.le), if_pos hpos]
  · rw [hrs]
    unfold orient_circuit
    rw [ht2, if_neg (not_lt.mpr hpos.le), if_pos hpos]

/-- C8, amended.  If no turning ratio of the circuit has argument exactly
`π` (no edge doubles back along its predecessor) and the total turning
angle is nonzero, then `orient_circuit` of the circuit and of its exact
reverse agree, and the common result is counterclockwise (positive total
angle). -/
theorem orient_circuit_reverse_amended (c : Circuit)
    (hpi : ∀ r ∈ ratios c, Complex.arg r ≠ Real.pi)
    (hne : totalAngle c ≠ 0) :
    ∃ oc, orient_circuit c = some oc ∧
      orient_circuit (reverseSwap c) = some oc ∧ 0 < totalAngle oc := by
  have hrev := totalAngle_reverseSwap c hpi
  rcases lt_or_gt_of_ne hne with hlt | hgt
  · have hpos : 0 < totalAngle (reverseSwap c) := by rw [hrev]; linarith
    refine ⟨reverseSwap c, ?_, ?_, hpos⟩
    · unfold orient_circuit
      rw [if_pos hlt]
    · unfold orient_circuit
      rw [if_neg (not_lt.mpr hpos.le), if_pos hpos]
  · have hneg : totalAngle (reverseSwap c) < 0 := by rw [hrev]; linarith
    refine ⟨c, ?_, ?_, hgt⟩
    · unfold orient_circuit
      rw [if_neg (not_lt.mpr hgt.le), if_pos hgt]
    · unfold orient_circuit
      rw [if_pos hneg, reverseSwap_reverseSwap]

/-- C8, witness: the unit-square circuit has all ratios `I` (argument
`π/2 ≠ π`) and total angle `2π ≠ 0`; both it and its exact reverse orient
to the counterclockwise square. -/
theorem orient_circuit_reverse_amended_witness :
    ∃ oc, orient_circuit [(((0 : ℚ), (0 : ℚ)), ((1 : ℚ), (0 : ℚ))), (((1 : ℚ), (0 : ℚ)), ((1 : ℚ), (1 : ℚ))),
        (((1 : ℚ), (1 : ℚ)), ((0 : ℚ), (1 : ℚ))), (((0 : ℚ), (1 : ℚ)), ((0 : ℚ), (0 : ℚ)))] = some oc ∧
      orient_circuit (reverseSwap [(((0 : ℚ), (0 : ℚ)), ((1 : ℚ), (0 : ℚ))), (((1 : ℚ), (0 : ℚ)), ((1 : ℚ), (1 : ℚ))),
        (((1 : ℚ), (1 : ℚ)), ((0 : ℚ), (1 : ℚ))), (((0 : ℚ), (1 : ℚ)), ((0 : ℚ), (0 : ℚ)))]) = some oc ∧
      0 < totalAngle oc := by
  refine orient_circuit_reverse_amended _ (fun r hr => ?_) ?_
  · rw [ratios_unit_square] at hr
    simp only [List.mem_cons, List.not_mem_nil, or_false, or_self] at hr
    rw [hr, Complex.arg_I]
    have hp := Real.pi_pos
    intro h
    linarith
  · rw [totalAngle_unit_square]
    positivity

/-- The two `BEq` instances on rational points (the product instance and
the one derived from decidable equality) give the same `indexOf`. -/
theorem indexOf_prod_eq (p : QPt) (L : List QPt) :
    L.indexOf p = @List.indexOf QPt instBEqOfDecidableEq p L := by
  have hinst : (instBEqProd : BEq QPt) = instBEqOfDecidableEq :=
    congrArg BEq.mk (funext fun a => funext fun b => by
      by_cases h : a = b
      · simp [h]
      · simp [h]
        exact fun h1 h2 => h (Prod.ext_iff.mpr ⟨h1, h2⟩))
  rw [hinst]

/-- The rebased vertex sequence `EC[i:] + EC[:i+1]` starts at `p`. -/
theorem rebase_head (p : QPt) (L : List QPt) (hp : p ∈ L) :
    (rebase p L).head? = some p := by
  have hi : L.indexOf p < L.length := by
    rw [indexOf_prod_eq]
    exact List.indexOf_lt_length.mpr hp
  have hget : L[L.indexOf p]? = some p := by
    rw [indexOf_prod_eq, List.getElem?_eq_getElem (List.indexOf_lt_length.mpr hp),
      List.getElem_indexOf (List.indexOf_lt_length.mpr hp)]
  unfold rebase
  rw [List.head?_append, List.head?_drop, hget]
  rfl

/-- The rebased vertex sequence `EC[i:] + EC[:i+1]` ends at `p`. -/
theorem rebase_getLast (p : QPt) (L : List QPt) (hp : p ∈ L) :
    (rebase p L).getLast? = some p := by
  have hi : L.indexOf p < L.length := by
    rw [indexOf_prod_eq]
    exact List.indexOf_lt_length.mpr hp
  have hget : L[L.indexOf p]? = some p := by
    rw [indexOf_prod_eq, List.getElem?_eq_getElem (List.indexOf_lt_length.mpr hp),
      List.getElem_indexOf (List.indexOf_lt_length.mpr hp)]
  have hlen : (L.take (L.indexOf p + 1)).length - 1 = L.indexOf p := by
    rw [List.length_take]
    omega
  have h2 : (L.take (L.indexOf p + 1)).getLast? = some p := by
    rw [List.getLast?_eq_getElem?, hlen, List.getElem?_take,
      if_pos (Nat.lt_succ_self _), hget]
  unfold rebase
  rw [List.getLast?_append, h2]
  rfl

/-- C6.  In the base case of `geometric_basis` — when `G` and `E` have the
same edge set and `E` is a single cycle — the returned basis is the single
element `rebase p (circuitVerts oc)`, the vertex sequence of the oriented
Eulerian circuit re-based at `p`; that sequence starts and ends at `p`, and
the oriented circuit is counterclockwise (positive total turning angle). -/
theorem geometric_basis_base_case (G E : SGraph QPt) (p : QPt) (ec oc : Circuit)
    (hor : orient_circuit ec = some oc)
    (hedges : G.edges = E.edges)
    (hcyc : E.isCycleB = true)
    (hp : p ∈ circuitVerts oc) :
    geometric_basis_step G E p ec =
      some (GBStep.basis [rebase p (circuitVerts oc)]) ∧
    (rebase p (circuitVerts oc)).head? = some p ∧
    (rebase p (circuitVerts oc)).getLast? = some p ∧
    0 < totalAngle oc := by
  refine ⟨?_, rebase_head p _ hp, rebase_getLast p _ hp, ?_⟩
  · simp [geometric_basis_step, hor, hedges, hcyc]
  · unfold orient_circuit at hor
    by_cases hlt : totalAngle ec < 0
    · rw [if_pos hlt] at hor
      injection hor with h
      have hge := totalAngle_reverseSwap_ge ec
      rw [← h]
      linarith
    · rw [if_neg hlt] at hor
      by_cases hgt : 0 < totalAngle ec
      · rw [if_pos hgt] at hor
        injection hor with h
        rw [← h]
        exact hgt
      · rw [if_neg hgt] at hor
        exact absurd hor (by simp)

/-- C6, witness: the unit-square graph is its own boundary subgraph and a
single cycle; its counterclockwise Eulerian circuit based at the origin is
returned as the sole basis element. -/
theorem geometric_basis_base_case_witness :
    geometric_basis_step
      ⟨[((0 : ℚ), (0 : ℚ)), ((1 : ℚ), (0 : ℚ)), ((1 : ℚ), (1 : ℚ)), ((0 : ℚ), (1 : ℚ))],
       [(((0 : ℚ), (0 : ℚ)), ((1 : ℚ), (0 : ℚ))), (((1 : ℚ), (0 : ℚ)), ((1 : ℚ), (1 : ℚ))),
        (((1 : ℚ), (1 : ℚ)), ((0 : ℚ), (1 : ℚ))), (((0 : ℚ), (1 : ℚ)), ((0 : ℚ), (0 : ℚ)))]⟩
      ⟨[((0 : ℚ), (0 : ℚ)), ((1 : ℚ), (0 : ℚ)), ((1 : ℚ), (1 : ℚ)), ((0 : ℚ), (1 : ℚ))],
       [(((0 : ℚ), (0 : ℚ)), ((1 : ℚ), (0 : ℚ))), (((1 : ℚ), (0 : ℚ)), ((1 : ℚ), (1 : ℚ))),
        (((1 : ℚ), (1 : ℚ)), ((0 : ℚ), (1 : ℚ))), (((0 : ℚ), (1 : ℚ)), ((0 : ℚ), (0 : ℚ)))]⟩
      ((0 : ℚ), (0 : ℚ))
      [(((0 : ℚ), (0 : ℚ)), ((1 : ℚ), (0 : ℚ))), (((1 : ℚ), (0 : ℚ)), ((1 : ℚ), (1 : ℚ))),
       (((1 : ℚ), (1 : ℚ)), ((0 : ℚ), (1 : ℚ))), (((0 : ℚ), (1 : ℚ)), ((0 : ℚ), (0 : ℚ)))] =
      some (GBStep.basis [rebase ((0 : ℚ), (0 : ℚ)) (circuitVerts
        [(((0 : ℚ), (0 : ℚ)), ((1 : ℚ), (0 : ℚ))), (((1 : ℚ), (0 : ℚ)), ((1 : ℚ), (1 : ℚ))),
         (((1 : ℚ), (1 : ℚ)), ((0 : ℚ), (1 : ℚ))), (((0 : ℚ), (1 : ℚ)), ((0 : ℚ), (0 : ℚ)))])]) ∧
    (rebase ((0 : ℚ), (0 : ℚ)) (circuitVerts
        [(((0 : ℚ), (0 : ℚ)), ((1 : ℚ), (0 : ℚ))), (((1 : ℚ), (0 : ℚ)), ((1 : ℚ), (1 : ℚ))),
         (((1 : ℚ), (1 : ℚ)), ((0 : ℚ), (1 : ℚ))), (((0 : ℚ), (1 : ℚ)), ((0 : ℚ), (0 : ℚ)))])).head? =
      some ((0 : ℚ), (0 : ℚ)) ∧
    (rebase ((0 : ℚ), (0 : ℚ)) (circuitVerts
        [(((0 : ℚ), (0 : ℚ)), ((1 : ℚ), (0 : ℚ))), (((1 : ℚ), (0 : ℚ)), ((1 : ℚ), (1 : ℚ))),
         (((1 : ℚ), (1 : ℚ)), ((0 : ℚ), (1 : ℚ))), (((0 : ℚ), (1 : ℚ)), ((0 : ℚ), (0 : ℚ)))])).getLast? =
      some ((0 : ℚ), (0 : ℚ)) ∧
    0 < totalAngle
      [(((0 : ℚ), (0 : ℚ)), ((1 : ℚ), (0 : ℚ))), (((1 : ℚ), (0 : ℚ)), ((1 : ℚ), (1 : ℚ))),
       (((1 : ℚ), (1 : ℚ)), ((0 : ℚ), (1 : ℚ))), (((0 : ℚ), (1 : ℚ)), ((0 : ℚ), (0 : ℚ)))] := by
  have hpos : (0 : ℝ) < 2 * Real.pi := by positivity
  have hor : orient_circuit
      [(((0 : ℚ), (0 : ℚ)), ((1 : ℚ), (0 : ℚ))), (((1 : ℚ), (0 : ℚ)), ((1 : ℚ), (1 : ℚ))),
       (((1 : ℚ), (1 : ℚ)), ((0 : ℚ), (1 : ℚ))), (((0 : ℚ), (1 : ℚ)), ((0 : ℚ), (0 : ℚ)))] =
      some [(((0 : ℚ), (0 : ℚ)), ((1 : ℚ), (0 : ℚ))), (((1 : ℚ), (0 : ℚ)), ((1 : ℚ), (1 : ℚ))),
       (((1 : ℚ), (1 : ℚ)), ((0 : ℚ), (1 : ℚ))), (((0 : ℚ), (1 : ℚ)), ((0 : ℚ), (0 : ℚ)))] := by
    unfold orient_circuit
    rw [totalAngle_unit_square, if_neg (not_lt.mpr hpos.le), if_pos hpos]
  exact geometric_basis_base_case _ _ _ _ _ hor rfl (by decide) (by decide)

end ZVK

